import Mathlib

/-!
# chefiles: a link checker for text files

A shallow embedding of `chefiles.go` and a verification of its specification.

* Go strings are embedded as lists of runes (`Str`); files are UTF-8 text, and the
  sizes that the line scanner compares with its buffer are counted in bytes.
* The pattern `urlRegex` is embedded as a syntax tree, run by a matcher with the
  leftmost-first preference of package `regexp`, and `FindAllString` by the loop of
  `allMatches`.
* The two maps of `main` are association lists; the order in which `range` yields
  the entries of `brokenLinks` is a parameter of `main`.
* The file system is a partial function from paths to file contents, and the
  directory walk is the sequence of paths with which the callback is called.
* The network is a state-passing oracle: whether `http.NewRequest` parses a URL, and
  what `client.Do` answers in a state of the world.
* The state of the check loop carries, besides the variables of `main`, the history
  of the loop: one event for each extracted link, with its classification and, when
  `checkLink` was called, the status code it returned.
-/

namespace Chefiles

/-- A Go string, as the sequence of its runes. -/
abbrev Str := List Char

/-! ## The regular expression engine (package `regexp`) -/

/-- The fragment of the regexp syntax that `urlRegex` is written in. -/
inductive Regex where
  /-- a literal rune -/
  | lit (c : Char)
  /-- a negated character class `[^...]`, given by the runes it excludes -/
  | negClass (excluded : List Char)
  /-- concatenation -/
  | cat (r s : Regex)
  /-- the greedy `r?` -/
  | opt (r : Regex)
  /-- the greedy `r+` -/
  | plus (r : Regex)

/-- The runes of the Perl class `\s` of package `regexp`: `[\t\n\f\r ]`. -/
def perlSpace : List Char := ['\t', '\n', '\x0c', '\r', ' ']

/-- The runes excluded by the class `[^\s\]\)>"']` of `urlRegex`. -/
def urlStop : List Char := perlSpace ++ [']', ')', '>', '"', '\'']

/-- The concatenation of the literal runes of `s`, ending in `r`. -/
def Regex.lits (s : Str) (r : Regex) : Regex :=
  s.foldr (fun c acc => Regex.cat (Regex.lit c) acc) r

/-- The compiled pattern: `https?://[^\s\]\)>"']+`. -/
def urlRegex : Regex :=
  Regex.lits "http".toList
    (Regex.cat (Regex.opt (Regex.lit 's'))
      (Regex.lits "://".toList (Regex.plus (Regex.negClass urlStop))))

/-- The iteration of `r+`: `step` gives the ways the body `r` matches, each as the
input left after it; one more iteration is preferred to stopping. -/
def plusRun (step : Str → List Str) : Nat → Str → List Str
  | 0, _ => []
  | n + 1, s => (step s).flatMap (fun rest => plusRun step n rest ++ [rest])

/-- All the ways `r` matches a prefix of the input, each as the input left after the
match, in the engine's order of preference (leftmost-first: a greedy operator
prefers to take its operand). -/
def Regex.run : Regex → Str → List Str
  | Regex.lit c, s =>
    match s with
    | [] => []
    | x :: xs => if x = c then [xs] else []
  | Regex.negClass excluded, s =>
    match s with
    | [] => []
    | x :: xs => if x ∈ excluded then [] else [xs]
  | Regex.cat r₁ r₂, s => (Regex.run r₁ s).flatMap (Regex.run r₂)
  | Regex.opt r, s => Regex.run r s ++ [s]
  | Regex.plus r, s => plusRun (Regex.run r) s.length s

/-- The length of the preferred match of `re` that starts at the head of `s`. -/
def matchLen (re : Regex) (s : Str) : Option Nat :=
  (Regex.run re s).head?.map (fun rest => s.length - rest.length)

/-- The leftmost match of `re` in `s`: its offset and its length. -/
def search (re : Regex) : Str → Option (Nat × Nat)
  | [] => (matchLen re []).map (fun k => (0, k))
  | c :: cs =>
    match matchLen re (c :: cs) with
    | some k => some (0, k)
    | none => (search re cs).map (fun m => (m.1 + 1, m.2))

/-- The loop of `(*Regexp).allMatches`: the successive matches of `re` in `line` from
`pos` on, as pairs (start, end). An empty match right after the previous match is
not delivered, and the search resumes one rune after an empty match. -/
def allMatches (re : Regex) (line : Str) : Nat → Nat → Option Nat → List (Nat × Nat)
  | 0, _, _ => []
  | fuel + 1, pos, prevMatchEnd =>
    if line.length < pos then []
    else
      match search re (line.drop pos) with
      | none => []
      | some (off, k) =>
        let m0 := pos + off
        let m1 := m0 + k
        if m1 = pos then
          if some m0 = prevMatchEnd then allMatches re line fuel (pos + 1) (some m1)
          else (m0, m1) :: allMatches re line fuel (pos + 1) (some m1)
        else (m0, m1) :: allMatches re line fuel m1 (some m1)

/-- The spans of `re.FindAllStringIndex(line, -1)`. Every turn of the loop moves the
position forward, so `line.length + 1` turns exhaust the line. -/
def findAllIndex (re : Regex) (line : Str) : List (Nat × Nat) :=
  allMatches re line (line.length + 1) 0 none

/-- The slice `line[m.1:m.2]`. -/
def slice (line : Str) (m : Nat × Nat) : Str :=
  (line.drop m.1).take (m.2 - m.1)

/-- The call `re.FindAllString(line, -1)`. -/
def findAllString (re : Regex) (line : Str) : List Str :=
  (findAllIndex re line).map (slice line)

/-! ## The line scanner (package `bufio`) -/

/-- The constant `bufio.MaxScanTokenSize`. -/
def maxScanTokenSize : Nat := 64 * 1024

/-- The number of bytes of the UTF-8 encoding of `s`. -/
def utf8Len (s : Str) : Nat := (s.map Char.utf8Size).sum

/-- The helper `dropCR` of `bufio.ScanLines`: one trailing carriage return is dropped. -/
def dropCR (data : Str) : Str :=
  if data.getLast? = some '\r' then data.dropLast else data

/-- The tokens of a `bufio.Scanner` with the split function `ScanLines` and the
default buffer: `cur` holds the runes of the line being read, last first. A line is
delivered without its end-of-line marker; a final empty line is not delivered; a
line of `maxScanTokenSize` bytes or more does not fit the buffer and ends the scan
(`ErrTooLong`). -/
def scanFrom (cur : Str) : Str → List Str
  | [] =>
    if cur = [] then []
    else if utf8Len cur < maxScanTokenSize then [dropCR cur.reverse]
    else []
  | c :: rest =>
    if c = '\n' then
      if utf8Len cur < maxScanTokenSize then dropCR cur.reverse :: scanFrom [] rest
      else []
    else scanFrom (c :: cur) rest

/-- The lines that the loop `for scanner.Scan() { line := scanner.Text() ... }`
sees on a file with the given content. -/
def scanLines (content : Str) : List Str := scanFrom [] content

/-! ## The link extractor -/

/-- The file system: the content of each path that can be opened. -/
abbrev FS := Str → Option Str

/-- The function `extractLinks`. -/
def extractLinks (fs : FS) (file : Str) : List Str :=
  match fs file with
  | none => []
  | some content =>
    (scanLines content).foldl (fun links line => links ++ findAllString urlRegex line) []

/-! ## Go maps with string keys -/

/-- A Go map with string keys, as the list of its entries; keys occur once. -/
abbrev GoMap (V : Type) := List (Str × V)

/-- The lookup `v, exists := m[k]`. -/
def GoMap.get {V : Type} : GoMap V → Str → Option V
  | [], _ => none
  | (k', v) :: rest, k => if k' = k then some v else GoMap.get rest k

/-- The assignment `m[k] = v`. -/
def GoMap.set {V : Type} : GoMap V → Str → V → GoMap V
  | [], k, v => [(k, v)]
  | (k', v') :: rest, k, v =>
    if k' = k then (k, v) :: rest else (k', v') :: GoMap.set rest k v

/-- The expression `m[k]` of a map of slices: the zero value `nil` when `k` is no key. -/
def GoMap.getSlice (m : GoMap (List Str)) (k : Str) : List Str :=
  (GoMap.get m k).getD []

/-! ## The link checker -/

/-- An `http.Request`, as far as `checkLink` fills it in. -/
structure Request where
  /-- the request method -/
  method : Str
  /-- the URL the request goes to -/
  url : Str
  /-- the header fields, each with its values -/
  header : GoMap (List Str)
  /-- the request body, `none` for `nil` -/
  body : Option Str
  deriving DecidableEq

/-- The network, seen from `checkLink`, over the states `W` of the world. -/
structure Network (W : Type) where
  /-- whether `http.NewRequest` can parse the URL -/
  parses : Str → Bool
  /-- The call `client.Do(req)` with the 5 second timeout: the status code of the
  response, or `none` when it returns an error, and the world after the call. -/
  roundTrip : W → Request → Option Int × W

/-- The call `http.NewRequest(method, url, body)` for a valid method: a request with
an empty header, or `none` when the URL does not parse. -/
def newRequest {W : Type} (net : Network W) (method url : Str) (body : Option Str) :
    Option Request :=
  if net.parses url then some { method := method, url := url, header := [], body := body }
  else none

/-- The method `Header.Set` for a key in canonical form. -/
def headerSet (h : GoMap (List Str)) (key value : Str) : GoMap (List Str) :=
  GoMap.set h key [value]

/-- The request that `checkLink` builds and hands to `client.Do`, or `none` when
`http.NewRequest` fails. -/
def buildRequest {W : Type} (net : Network W) (url token : Str) : Option Request :=
  match newRequest net "GET".toList url none with
  | none => none
  | some req =>
    if token ≠ [] then
      some { req with
        header := headerSet req.header "Authorization".toList ("Bearer ".toList ++ token) }
    else some req

/-- The function `checkLink`, with the world after the call. -/
def checkLink {W : Type} (net : Network W) (w : W) (url token : Str) : (Bool × Int) × W :=
  match buildRequest net url token with
  | none => ((false, 0), w)
  | some req =>
    match net.roundTrip w req with
    | (none, w') => ((false, 0), w')
    | (some statusCode, w') =>
      ((decide (200 ≤ statusCode) && decide (statusCode < 300), statusCode), w')

/-! ## The file discoverer -/

/-- The call `strings.Split(s, sep)` for a separator of one rune. -/
def split (sep : Char) : Str → List Str
  | [] => [[]]
  | c :: cs =>
    if c = sep then [] :: split sep cs
    else
      match split sep cs with
      | [] => [[c]]
      | first :: rest => (c :: first) :: rest

/-- The call `strings.HasSuffix(s, suffix)`. -/
def hasSuffix (s suffix : Str) : Bool := suffix.isSuffixOf s

/-- The loop over `extensions` in the callback handed to `filepath.WalkDir`: the
path is appended at the first extension it ends with, and the loop is left. -/
def appendIfMatch (files : List Str) (path : Str) : List Str → List Str
  | [] => files
  | ext :: rest =>
    if hasSuffix path ext then files ++ [path] else appendIfMatch files path rest

/-- The effect on `files` of the walk, given the paths with which `filepath.WalkDir`
calls the callback, in order. -/
def discover (extensions : List Str) (visited : List Str) : List Str :=
  visited.foldl (fun files path => appendIfMatch files path extensions) []

/-! ## The check loop and the report -/

/-- The call `fmt.Println(args...)`: the operands separated by spaces, and a newline. -/
def println (args : List Str) : Str :=
  [' '].intercalate args ++ ['\n']

/-- The text `OK` or `BROKEN` of the verbose output. -/
def statusText (ok : Bool) : Str :=
  if !ok then "BROKEN".toList else "OK".toList

/-- The line printed for a cache hit in verbose mode. -/
def cachedLine (link : Str) (result : Bool) : Str :=
  "🔁 Cached:  ".toList ++ link ++ " → ".toList ++ statusText result ++
    " (from cache)\n".toList

/-- The line printed for a fresh check in verbose mode. -/
def checkingLine (link : Str) (code : Int) (ok : Bool) : Str :=
  "🔎 Checking: ".toList ++ link ++ " → ".toList ++ (toString code).toList ++
    " (".toList ++ statusText ok ++ ")\n".toList

/-- A record of one turn of the inner loop: the classification of one extracted
link. -/
structure Event where
  /-- the file the link was extracted from -/
  file : Str
  /-- the link -/
  link : Str
  /-- the classification: `true` for reachable, `false` for broken -/
  ok : Bool
  /-- the status code that `checkLink` returned, `none` when the cache answered -/
  code : Option Int
  deriving DecidableEq

/-- The state of the check loop. -/
structure State (W : Type) where
  /-- the map `checkedLinks` -/
  checkedLinks : GoMap Bool
  /-- the map `brokenLinks` -/
  brokenLinks : GoMap (List Str)
  /-- the state of the world -/
  world : W
  /-- what has been written to standard output -/
  stdout : Str
  /-- the history of the loop, one event for each turn -/
  history : List Event

/-- The statement `brokenLinks[file] = append(brokenLinks[file], link)`. -/
def appendBroken (brokenLinks : GoMap (List Str)) (file link : Str) : GoMap (List Str) :=
  GoMap.set brokenLinks file (GoMap.getSlice brokenLinks file ++ [link])

/-- The body of the loop over the links of a file. -/
def visitLink {W : Type} (net : Network W) (token : Str) (verbose : Bool) (file : Str)
    (st : State W) (link : Str) : State W :=
  match GoMap.get st.checkedLinks link with
  | some result =>
    { st with
      stdout := if verbose then st.stdout ++ cachedLine link result else st.stdout
      brokenLinks :=
        if !result then appendBroken st.brokenLinks file link else st.brokenLinks
      history := st.history ++ [{ file := file, link := link, ok := result, code := none }] }
  | none =>
    match checkLink net st.world link token with
    | ((ok, code), w) =>
      { checkedLinks := GoMap.set st.checkedLinks link ok
        brokenLinks := if !ok then appendBroken st.brokenLinks file link else st.brokenLinks
        world := w
        stdout := if verbose then st.stdout ++ checkingLine link code ok else st.stdout
        history := st.history ++ [{ file := file, link := link, ok := ok, code := some code }] }

/-- The body of the loop over the files, for the extractor `extract`. -/
def visitFile {W : Type} (net : Network W) (extract : Str → List Str) (token : Str)
    (verbose : Bool) (st : State W) (file : Str) : State W :=
  (extract file).foldl (visitLink net token verbose file) st

/-- The state before the check loop. -/
def State.init {W : Type} (w : W) : State W :=
  { checkedLinks := [], brokenLinks := [], world := w, stdout := [], history := [] }

/-- The check loop of `main`. -/
def checkLoop {W : Type} (net : Network W) (extract : Str → List Str) (token : Str)
    (verbose : Bool) (files : List Str) (w : W) : State W :=
  files.foldl (visitFile net extract token verbose) (State.init w)

/-- The success line of the final summary. -/
def successLine : Str := println ["✅ No broken links found.".toList]

/-- The header of the listing of the final summary. -/
def headerLine : Str := println ["\n🔍 Broken links:".toList]

/-- The final summary, for the entries of `brokenLinks` in the order in which the
`range` loop yields them. -/
def report (entries : GoMap (List Str)) : Str :=
  if entries.length = 0 then successLine
  else
    headerLine ++
      entries.flatMap (fun entry =>
        println ["📄".toList, entry.1] ++
          entry.2.flatMap (fun l => println ["   ❌".toList, l]))

/-- The flags of the command line, as parsed. -/
structure Flags where
  /-- the flag `ext` -/
  exts : Str
  /-- the flag `token` -/
  token : Str
  /-- the flag `v` -/
  verbose : Bool

/-- The default values of the flags. -/
def defaultFlags : Flags :=
  { exts := ".md,.txt,.html".toList, token := [], verbose := false }

/-- The usage line. -/
def usageLine : Str :=
  println ["❗ Usage: go run main.go DIRECTORY [--ext=.md,.txt,.html] [--token=YOUR_TOKEN] [-v]".toList]

/-- The function `main`: standard output and the exit code. `walk` gives the paths
that `filepath.WalkDir` visits under a directory, and `order` the order in which
`range` yields the entries of a map. -/
def main {W : Type} (net : Network W) (fs : FS) (walk : Str → List Str)
    (order : GoMap (List Str) → GoMap (List Str)) (flags : Flags) (args : List Str)
    (w : W) : Str × Nat :=
  match args with
  | [] => (usageLine, 1)
  | dir :: _ =>
    let extensions := split ',' flags.exts
    let files := discover extensions (walk dir)
    let st := checkLoop net (extractLinks fs) flags.token flags.verbose files w
    (st.stdout ++ report (order st.brokenLinks), 0)

/-! ## Specification vocabulary -/

/-- The longest prefix of `s` that holds no rune of `urlStop`: the runes up to the
first whitespace rune of the class `\s`, the first delimiter, or the end. -/
def linkRun (s : Str) : Str := s.takeWhile (fun c => decide (c ∉ urlStop))

/-- The function `unicode.IsSpace`: the runes with the Unicode property White_Space. -/
def isSpace (c : Char) : Bool :=
  decide (c ∈ ['\t', '\n', '\x0b', '\x0c', '\r', ' ', '\u0085', '\u00a0', '\u1680',
    '\u2028', '\u2029', '\u202f', '\u205f', '\u3000']) ||
    (decide (0x2000 ≤ c.toNat) && decide (c.toNat ≤ 0x200a))

/-- A list of pieces without its last piece when that piece is empty. -/
def dropFinalEmpty (pieces : List Str) : List Str :=
  if pieces.getLast? = some [] then pieces.dropLast else pieces

/-- The lines of a file: the pieces of the content between its newlines, without the
empty piece after a final newline. -/
def fileLines (content : Str) : List Str := dropFinalEmpty (split '\n' content)

/-- The lines of a file that come before its first line of `maxScanTokenSize` bytes or
more, each without its trailing carriage return. -/
def deliveredLines (content : Str) : List Str :=
  ((fileLines content).takeWhile (fun line => decide (utf8Len line < maxScanTokenSize))).map
    dropCR

/-- The two literals a link can start with. -/
def IsScheme (p : Str) : Prop := p = "http://".toList ∨ p = "https://".toList

/-- What is left of the input after the body of a link, when the body is not empty. -/
def afterBody (v : Str) : Option Str :=
  if linkRun v = [] then none else some (v.dropWhile (fun c => decide (c ∉ urlStop)))

/-- The spans are the successive leftmost matches of `urlRegex` in `line` from `pos`
on: before each span, from the end of the one before it, no position starts a match,
and no position does after the last. -/
inductive Scan (line : Str) : Nat → List (Nat × Nat) → Prop
  | done (pos : Nat)
      (hnone : ∀ j, pos ≤ j → j ≤ line.length → matchLen urlRegex (line.drop j) = none) :
      Scan line pos []
  | step (pos a k : Nat) (rest : List (Nat × Nat)) (hpa : pos ≤ a)
      (hgap : ∀ j, pos ≤ j → j < a → matchLen urlRegex (line.drop j) = none)
      (hm : matchLen urlRegex (line.drop a) = some k)
      (hrest : Scan line (a + k) rest) :
      Scan line pos ((a, a + k) :: rest)

/-- A network that accepts every URL and answers every request alike. -/
def replyNet (answer : Option Int) : Network Unit :=
  { parses := fun _ => true, roundTrip := fun w _ => (answer, w) }

/-- Whether the path ends with one of the extensions. -/
def matchesAny (extensions : List Str) (path : Str) : Bool :=
  extensions.any (fun ext => hasSuffix path ext)

/-- The extracted links of all the files, each with its file, in the order in which
the check loop meets them. -/
def occurrences (extract : Str → List Str) (files : List Str) : List (Str × Str) :=
  files.flatMap (fun file => (extract file).map (fun link => (file, link)))

/-- The distinct members of a list, in the order of their first occurrence. -/
def firstOccurrences : List Str → List Str
  | [] => []
  | x :: xs => x :: (firstOccurrences xs).filter (fun y => decide (y ≠ x))

/-- The URLs for which the loop called `checkLink`, in the order of the calls. -/
def State.calls {W : Type} (st : State W) : List Str :=
  (st.history.filter (fun e => e.code.isSome)).map Event.link

/-- One call of `checkLink` for each URL of the list, in order, from a state of the
world and a cache: the world after the calls, and the cache with the boolean of each
call added under its URL. -/
def checkAll {W : Type} (net : Network W) (token : Str) (start : W × GoMap Bool)
    (urls : List Str) : W × GoMap Bool :=
  urls.foldl
    (fun s url =>
      ((checkLink net s.1 url token).2, s.2 ++ [(url, (checkLink net s.1 url token).1.1)]))
    start

/-- A network that accepts every URL and whose world is the list of the URLs of the
requests performed so far. -/
def logNet (answer : Str → Option Int) : Network (List Str) :=
  { parses := fun _ => true
    roundTrip := fun w req => (answer req.url, w ++ [req.url]) }

/-- The check loop, link by link. -/
def runPairs {W : Type} (net : Network W) (token : Str) (verbose : Bool) (st : State W)
    (ps : List (Str × Str)) : State W :=
  ps.foldl (fun st p => visitLink net token verbose p.1 st p.2) st

/-- The invariant of the check loop, after the occurrences `ps`. -/
structure Inv {W : Type} (ps : List (Str × Str)) (st : State W) : Prop where
  hist : st.history.map (fun e => (e.file, e.link)) = ps
  keys : ∀ u, GoMap.get st.checkedLinks u = none ↔ u ∉ ps.map Prod.snd
  cache : ∀ e ∈ st.history, GoMap.get st.checkedLinks e.link = some e.ok
  calls : st.calls = firstOccurrences (ps.map Prod.snd)
  order : st.history.Pairwise
    (fun e₁ e₂ => e₁.link = e₂.link → e₂.code = none ∧ e₂.ok = e₁.ok)
  fresh : ∀ e ∈ st.history, ∀ c, e.code = some c → (e.ok = true ↔ 200 ≤ c ∧ c < 300)
  origin : ∀ e ∈ st.history, ∃ e' ∈ st.history,
    e'.link = e.link ∧ e'.ok = e.ok ∧ e'.code.isSome = true
  broken : ∀ f, GoMap.getSlice st.brokenLinks f =
    (st.history.filter (fun e => decide (e.file = f) && !e.ok)).map Event.link
  key : ∀ p ∈ st.brokenLinks, p.2 ≠ []

/-- A network that answers 404 to the first request and 200 to every later one; the
state of the world is the number of requests so far. -/
def flakyNet : Network Nat :=
  { parses := fun _ => true
    roundTrip := fun w _ => (if w = 0 then some 404 else some 200, w + 1) }

/-- The lines of the listing for one entry of `brokenLinks`. -/
def fileBlock (entry : Str × List Str) : Str :=
  println ["📄".toList, entry.1] ++ entry.2.flatMap (fun l => println ["   ❌".toList, l])

/-! ## The pattern -/

theorem run_lits (p : Str) (r : Regex) (s : Str) :
    Regex.run (Regex.lits p r) s = if p <+: s then Regex.run r (s.drop p.length) else [] := by
  induction p generalizing s with
  | nil => simp [Regex.lits]
  | cons c p ih =>
    have hl : Regex.lits (c :: p) r = Regex.cat (Regex.lit c) (Regex.lits p r) := rfl
    rw [hl]
    cases s with
    | nil => simp [Regex.run]
    | cons x xs =>
      by_cases hx : x = c
      · subst hx
        simp [Regex.run, ih, List.cons_prefix_cons]
      · have hx' : ¬ c = x := fun h => hx h.symm
        simp [Regex.run, hx, hx', List.cons_prefix_cons]

theorem run_negClass_nil (ex : List Char) : Regex.run (Regex.negClass ex) [] = [] := rfl

theorem run_negClass_cons (ex : List Char) (x : Char) (xs : Str) :
    Regex.run (Regex.negClass ex) (x :: xs) = if x ∈ ex then [] else [xs] := rfl

theorem plusRun_succ (step : Str → List Str) (n : Nat) (s : Str) :
    plusRun step (n + 1) s = (step s).flatMap (fun rest => plusRun step n rest ++ [rest]) :=
  rfl

theorem head_plusRun_negClass (ex : List Char) :
    ∀ (n : Nat) (v : Str), v.length ≤ n →
      (plusRun (Regex.run (Regex.negClass ex)) n v).head? =
        if v.takeWhile (fun c => decide (c ∉ ex)) = [] then none
        else some (v.dropWhile (fun c => decide (c ∉ ex))) := by
  intro n
  induction n with
  | zero =>
    intro v hv
    have : v = [] := List.length_eq_zero.mp (Nat.le_zero.mp hv)
    subst this
    simp [plusRun]
  | succ n ih =>
    intro v hv
    cases v with
    | nil => simp [plusRun_succ, run_negClass_nil]
    | cons x xs =>
      have hxs : xs.length ≤ n := by simpa using hv
      rw [plusRun_succ, run_negClass_cons]
      by_cases hx : x ∈ ex
      · simp [hx, List.takeWhile_cons]
      · have h1 := ih xs hxs
        simp only [hx, if_false, List.flatMap_cons, List.flatMap_nil,
          List.append_nil, List.head?_append, h1]
        simp only [List.takeWhile_cons, List.dropWhile_cons, hx, not_false_eq_true,
          decide_True, if_true]
        cases xs with
        | nil => simp
        | cons y ys =>
          by_cases hy : y ∈ ex
          · simp [List.takeWhile_cons, List.dropWhile_cons, hy]
          · simp [List.takeWhile_cons, List.dropWhile_cons, hy]

theorem length_dropWhile_le (p : Char → Bool) (v : Str) :
    (v.dropWhile p).length + (v.takeWhile p).length = v.length := by
  have h := congrArg List.length (List.takeWhile_append_dropWhile p v)
  simp only [List.length_append] at h
  omega

/-- The body `[^\s\]\)>"']+` matches the run of link runes, when there is one. -/
theorem matchLen_plus_body (v : Str) :
    (Regex.run (Regex.plus (Regex.negClass urlStop)) v).head? =
      if linkRun v = [] then none
      else some (v.dropWhile (fun c => decide (c ∉ urlStop))) := by
  simp only [Regex.run]
  exact head_plusRun_negClass urlStop v.length v (Nat.le_refl _)

theorem http_toList : "http".toList = ['h', 't', 't', 'p'] := rfl

theorem sep_toList : "://".toList = [':', '/', '/'] := rfl

theorem httpScheme_toList : "http://".toList = ['h', 't', 't', 'p', ':', '/', '/'] := rfl

theorem httpsScheme_toList :
    "https://".toList = ['h', 't', 't', 'p', 's', ':', '/', '/'] := rfl

theorem run_cat (r₁ r₂ : Regex) (s : Str) :
    Regex.run (Regex.cat r₁ r₂) s = (Regex.run r₁ s).flatMap (Regex.run r₂) := rfl

theorem run_opt (r : Regex) (s : Str) :
    Regex.run (Regex.opt r) s = Regex.run r s ++ [s] := rfl

theorem run_lit_nil (c : Char) : Regex.run (Regex.lit c) [] = [] := rfl

theorem run_lit_cons (c x : Char) (xs : Str) :
    Regex.run (Regex.lit c) (x :: xs) = if x = c then [xs] else [] := rfl

theorem head_run_sep (t : Str) :
    (Regex.run (Regex.lits "://".toList (Regex.plus (Regex.negClass urlStop))) t).head? =
      if "://".toList <+: t then afterBody (t.drop 3) else none := by
  rw [run_lits]
  by_cases h : "://".toList <+: t
  · simp only [h, if_true, matchLen_plus_body, afterBody]
    rfl
  · simp only [h, if_false, List.head?_nil]

theorem run_sep_of_ne (c : Char) (t : Str) (hc : c ≠ ':') :
    Regex.run (Regex.lits "://".toList (Regex.plus (Regex.negClass urlStop))) (c :: t) = [] := by
  rw [run_lits, sep_toList]
  have : ¬ ([':', '/', '/'] <+: c :: t) := by
    simp [List.cons_prefix_cons]
    intro h
    exact absurd h.symm hc
  simp only [this, if_false]

theorem head_run_urlRegex (s : Str) :
    (Regex.run urlRegex s).head? =
      if "https://".toList <+: s then afterBody (s.drop 8)
      else if "http://".toList <+: s then afterBody (s.drop 7)
      else none := by
  unfold urlRegex
  rw [run_lits]
  by_cases h : "http".toList <+: s
  · obtain ⟨t, rfl⟩ := h
    simp only [List.prefix_append, if_true, List.drop_left, run_cat, run_opt]
    cases t with
    | nil =>
      simp [http_toList, httpScheme_toList, httpsScheme_toList, run_lit_nil, run_lits,
        sep_toList]
    | cons c t =>
      rw [run_lit_cons]
      by_cases hc : c = 's'
      · subst hc
        simp only [if_true, List.nil_append, List.cons_append, List.flatMap_cons,
          List.flatMap_nil, List.append_nil]
        rw [run_sep_of_ne 's' t (by decide), List.append_nil, head_run_sep]
        simp [http_toList, httpScheme_toList, httpsScheme_toList, sep_toList,
          List.cons_prefix_cons]
      · simp only [hc, if_false, List.nil_append, List.flatMap_cons, List.flatMap_nil,
          List.append_nil]
        rw [head_run_sep]
        have hc' : ¬ 's' = c := fun h => hc h.symm
        simp [http_toList, httpScheme_toList, httpsScheme_toList, sep_toList,
          List.cons_prefix_cons, hc, hc']
  · have h1 : ¬ "https://".toList <+: s := fun h' =>
      h (List.IsPrefix.trans (by simp [http_toList, httpsScheme_toList, List.cons_prefix_cons]) h')
    have h2 : ¬ "http://".toList <+: s := fun h' =>
      h (List.IsPrefix.trans (by simp [http_toList, httpScheme_toList, List.cons_prefix_cons]) h')
    simp only [h, h1, h2, if_false, List.head?_nil]

theorem matchLen_scheme_append (p rest : Str) (hp : IsScheme p) :
    matchLen urlRegex (p ++ rest) =
      if linkRun rest = [] then none else some (p.length + (linkRun rest).length) := by
  have hlen := length_dropWhile_le (fun c => decide (c ∉ urlStop)) rest
  unfold matchLen
  rw [head_run_urlRegex]
  rcases hp with rfl | rfl
  · have h1 : ¬ "https://".toList <+: "http://".toList ++ rest := by
      simp [httpScheme_toList, httpsScheme_toList, List.cons_prefix_cons]
    have h2 : "http://".toList <+: "http://".toList ++ rest := List.prefix_append _ _
    have h3 : List.drop 7 ("http://".toList ++ rest) = rest := by
      simp [httpScheme_toList]
    simp only [h1, h2, if_true, if_false, h3, afterBody]
    by_cases hr : linkRun rest = []
    · simp [hr]
    · simp only [hr, if_false, Option.map_some', List.length_append]
      congr 1
      simp only [httpScheme_toList, List.length_cons, List.length_nil, linkRun]
      omega
  · have h2 : "https://".toList <+: "https://".toList ++ rest := List.prefix_append _ _
    have h3 : List.drop 8 ("https://".toList ++ rest) = rest := by
      simp [httpsScheme_toList]
    simp only [h2, if_true, h3, afterBody]
    by_cases hr : linkRun rest = []
    · simp [hr]
    · simp only [hr, if_false, Option.map_some', List.length_append]
      congr 1
      simp only [httpsScheme_toList, List.length_cons, List.length_nil, linkRun]
      omega

theorem matchLen_eq_some {s : Str} {k : Nat} (h : matchLen urlRegex s = some k) :
    ∃ p rest, IsScheme p ∧ s = p ++ rest ∧ linkRun rest ≠ [] ∧
      k = p.length + (linkRun rest).length := by
  by_cases h1 : "https://".toList <+: s
  · obtain ⟨rest, rfl⟩ := h1
    rw [matchLen_scheme_append _ _ (Or.inr rfl)] at h
    by_cases hr : linkRun rest = []
    · simp [hr] at h
    · simp only [hr, if_false, Option.some.injEq] at h
      exact ⟨_, rest, Or.inr rfl, rfl, hr, h.symm⟩
  · by_cases h2 : "http://".toList <+: s
    · obtain ⟨rest, rfl⟩ := h2
      rw [matchLen_scheme_append _ _ (Or.inl rfl)] at h
      by_cases hr : linkRun rest = []
      · simp [hr] at h
      · simp only [hr, if_false, Option.some.injEq] at h
        exact ⟨_, rest, Or.inl rfl, rfl, hr, h.symm⟩
    · unfold matchLen at h
      rw [head_run_urlRegex, if_neg h1, if_neg h2] at h
      simp at h

/-! ## The search for the leftmost match -/

theorem search_eq_some {re : Regex} :
    ∀ {s : Str} {off k : Nat}, search re s = some (off, k) →
      off ≤ s.length ∧ matchLen re (s.drop off) = some k ∧
        ∀ j, j < off → matchLen re (s.drop j) = none := by
  intro s
  induction s with
  | nil =>
    intro off k h
    simp only [search, Option.map_eq_some'] at h
    obtain ⟨a, ha, he⟩ := h
    simp only [Prod.mk.injEq] at he
    obtain ⟨rfl, rfl⟩ := he
    simp [ha]
  | cons c cs ih =>
    intro off k h
    simp only [search] at h
    cases hm : matchLen re (c :: cs) with
    | some k' =>
      simp only [hm, Option.some.injEq, Prod.mk.injEq] at h
      obtain ⟨rfl, rfl⟩ := h
      simp [hm]
    | none =>
      simp only [hm, Option.map_eq_some'] at h
      obtain ⟨⟨o, k'⟩, ho, he⟩ := h
      simp only [Prod.mk.injEq] at he
      obtain ⟨rfl, rfl⟩ := he
      obtain ⟨h1, h2, h3⟩ := ih ho
      refine ⟨by simpa using h1, by simpa using h2, ?_⟩
      intro j hj
      cases j with
      | zero => simpa using hm
      | succ j => simpa using h3 j (by omega)

theorem search_eq_none {re : Regex} :
    ∀ {s : Str}, search re s = none → ∀ j, j ≤ s.length → matchLen re (s.drop j) = none := by
  intro s
  induction s with
  | nil =>
    intro h j _
    simp only [search, Option.map_eq_none'] at h
    simpa using h
  | cons c cs ih =>
    intro h j hj
    simp only [search] at h
    cases hm : matchLen re (c :: cs) with
    | some k' => simp [hm] at h
    | none =>
      simp only [hm, Option.map_eq_none'] at h
      cases j with
      | zero => simpa using hm
      | succ j => simpa using ih h j (by simpa using hj)

/-! ## The successive matches of the pattern in a line -/

theorem matchLen_bounds {s : Str} {k : Nat} (h : matchLen urlRegex s = some k) :
    8 ≤ k ∧ k ≤ s.length := by
  obtain ⟨p, rest, hp, rfl, hr, rfl⟩ := matchLen_eq_some h
  have h1 : 7 ≤ p.length := by
    rcases hp with rfl | rfl <;> simp [httpScheme_toList, httpsScheme_toList]
  have h2 : 0 < (linkRun rest).length := List.length_pos.mpr hr
  have h3 : (linkRun rest).length ≤ rest.length := by
    have := length_dropWhile_le (fun c => decide (c ∉ urlStop)) rest
    simp only [linkRun]
    omega
  simp only [List.length_append]
  omega

theorem scan_allMatches (line : Str) :
    ∀ (fuel pos : Nat) (prev : Option Nat), pos ≤ line.length →
      line.length + 1 ≤ fuel + pos → Scan line pos (allMatches urlRegex line fuel pos prev) := by
  intro fuel
  induction fuel with
  | zero => intro pos prev h1 h2; omega
  | succ fuel ih =>
    intro pos prev h1 h2
    have hlt : ¬ line.length < pos := by omega
    simp only [allMatches, hlt, if_false]
    cases hs : search urlRegex (line.drop pos) with
    | none =>
      simp only
      refine Scan.done pos ?_
      intro j hj hj'
      have := search_eq_none hs (j - pos) (by simp; omega)
      rw [List.drop_drop] at this
      have e : pos + (j - pos) = j := by omega
      rwa [e] at this
    | some m =>
      obtain ⟨off, k⟩ := m
      obtain ⟨hoff, hm, hgap⟩ := search_eq_some hs
      rw [List.drop_drop] at hm
      have hb := matchLen_bounds hm
      simp only [List.length_drop] at hoff hb
      have hne : ¬ pos + off + k = pos := by omega
      simp only [hne, if_false]
      refine Scan.step pos (pos + off) k _ (by omega) ?_ hm (ih _ _ (by omega) (by omega))
      intro j hj hj'
      have := hgap (j - pos) (by omega)
      rw [List.drop_drop] at this
      have e : pos + (j - pos) = j := by omega
      rwa [e] at this

theorem scan_findAllIndex (line : Str) : Scan line 0 (findAllIndex urlRegex line) :=
  scan_allMatches line _ 0 none (Nat.zero_le _) (by omega)

theorem not_mem_urlStop_of_mem_scheme {p : Str} (hp : IsScheme p) :
    ∀ c ∈ p, c ∉ urlStop := by
  rcases hp with rfl | rfl <;> decide

theorem not_mem_urlStop_of_mem_linkRun (rest : Str) : ∀ c ∈ linkRun rest, c ∉ urlStop := by
  intro c hc
  have := List.mem_takeWhile_imp hc
  simpa using this

theorem linkRun_append_dropWhile (rest : Str) :
    linkRun rest ++ rest.dropWhile (fun c => decide (c ∉ urlStop)) = rest :=
  List.takeWhile_append_dropWhile _ rest

theorem take_length_linkRun (rest : Str) : rest.take (linkRun rest).length = linkRun rest := by
  obtain ⟨l, d, hl, _, hrest⟩ : ∃ l d, linkRun rest = l ∧
      rest.dropWhile (fun c => decide (c ∉ urlStop)) = d ∧ l ++ d = rest :=
    ⟨_, _, rfl, rfl, linkRun_append_dropWhile rest⟩
  rw [hl]
  subst hrest
  exact List.take_left _ _

theorem drop_length_linkRun (rest : Str) :
    rest.drop (linkRun rest).length = rest.dropWhile (fun c => decide (c ∉ urlStop)) := by
  obtain ⟨l, d, hl, hd, hrest⟩ : ∃ l d, linkRun rest = l ∧
      rest.dropWhile (fun c => decide (c ∉ urlStop)) = d ∧ l ++ d = rest :=
    ⟨_, _, rfl, rfl, linkRun_append_dropWhile rest⟩
  rw [hl, hd]
  subst hrest
  exact List.drop_left _ _

/-- The shape of the match that starts at position `a`. -/
theorem match_shape {line : Str} {a k : Nat} (hm : matchLen urlRegex (line.drop a) = some k) :
    ∃ p rest, IsScheme p ∧ linkRun rest ≠ [] ∧ line.drop a = p ++ rest ∧
      slice line (a, a + k) = p ++ linkRun rest ∧
      line.drop (a + k) = rest.dropWhile (fun c => decide (c ∉ urlStop)) ∧
      a + k ≤ line.length := by
  obtain ⟨p, rest, hp, hd, hr, hk⟩ := matchLen_eq_some hm
  have hb := matchLen_bounds hm
  simp only [List.length_drop] at hb
  refine ⟨p, rest, hp, hr, hd, ?_, ?_, by omega⟩
  · simp only [slice, Nat.add_sub_cancel_left, hd, hk]
    rw [List.take_append, take_length_linkRun]
  · rw [← List.drop_drop, hd, hk, List.drop_append, drop_length_linkRun]

theorem scan_segments {line : Str} :
    ∀ {pos : Nat} {spans : List (Nat × Nat)}, Scan line pos spans → pos ≤ line.length →
      ∃ (segs : List (Str × Str)) (tail : Str),
        line.drop pos = (segs.map (fun g => g.1 ++ g.2)).flatten ++ tail ∧
        spans.map (slice line) = segs.map Prod.snd ∧
        ∀ g ∈ segs, ∃ p rest, IsScheme p ∧ linkRun rest ≠ [] ∧ g.2 = p ++ linkRun rest := by
  intro pos spans h
  induction h with
  | done pos _ =>
    intro _
    exact ⟨[], line.drop pos, by simp, by simp, by simp⟩
  | step pos a k rest hpa hgap hm hrest ih =>
    intro hpos
    obtain ⟨p, r, hp, hr, hd, hs, hd', hle⟩ := match_shape hm
    obtain ⟨segs, tail, h1, h2, h3⟩ := ih hle
    refine ⟨((line.drop pos).take (a - pos), p ++ linkRun r) :: segs, tail, ?_, ?_, ?_⟩
    · have e1 : line.drop pos = (line.drop pos).take (a - pos) ++ line.drop a := by
        conv_lhs => rw [← List.take_append_drop (a - pos) (line.drop pos)]
        rw [List.drop_drop]
        have : pos + (a - pos) = a := by omega
        rw [this]
      have e2 : line.drop a = (p ++ linkRun r) ++ line.drop (a + k) := by
        rw [hd, hd', List.append_assoc, linkRun_append_dropWhile]
      conv_lhs => rw [e1, e2, h1]
      simp [List.append_assoc]
    · simp [hs, h2]
    · intro g hg
      rcases List.mem_cons.mp hg with rfl | hg
      · exact ⟨p, r, hp, hr, rfl⟩
      · exact h3 g hg

theorem scan_sound {line : Str} :
    ∀ {pos : Nat} {spans : List (Nat × Nat)}, Scan line pos spans →
      ∀ m ∈ spans, matchLen urlRegex (line.drop m.1) = some (m.2 - m.1) := by
  intro pos spans h
  induction h with
  | done pos _ =>
    intro m hm
    simp at hm
  | step pos a k rest _ _ hm _ ih =>
    intro m hmem
    rcases List.mem_cons.mp hmem with rfl | hmem
    · simpa using hm
    · exact ih m hmem

theorem scan_complete {line : Str} :
    ∀ {pos : Nat} {spans : List (Nat × Nat)}, Scan line pos spans →
      ∀ i k, pos ≤ i → matchLen urlRegex (line.drop i) = some k →
        (i, i + k) ∈ spans ∨ ∃ m ∈ spans, m.1 < i ∧ i < m.2 := by
  intro pos spans h
  induction h with
  | done pos hnone =>
    intro i k hi hm
    have hb := matchLen_bounds hm
    simp only [List.length_drop] at hb
    have := hnone i hi (by omega)
    rw [this] at hm
    exact absurd hm (by simp)
  | step pos a k' rest hpa hgap hm' hrest ih =>
    intro i k hi hm
    rcases Nat.lt_trichotomy i a with hlt | heq | hgt
    · have := hgap i hi hlt
      rw [this] at hm
      exact absurd hm (by simp)
    · subst heq
      rw [hm] at hm'
      cases hm'
      exact Or.inl (List.mem_cons_self _ _)
    · by_cases hin : i < a + k'
      · exact Or.inr ⟨(a, a + k'), List.mem_cons_self _ _, hgt, hin⟩
      · rcases ih i k (by omega) hm with h1 | ⟨m, hmem, h2⟩
        · exact Or.inl (List.mem_cons_of_mem _ h1)
        · exact Or.inr ⟨m, List.mem_cons_of_mem _ hmem, h2⟩

/-! ## The lines of a file -/

theorem dropCR_isPre (data : Str) : dropCR data <+: data := by
  unfold dropCR
  split
  · exact List.dropLast_prefix data
  · exact List.prefix_refl data

theorem scanFrom_spec :
    ∀ (rest cur : Str), '\n' ∉ cur → ∀ line ∈ scanFrom cur rest,
      '\n' ∉ line ∧ line <:+: cur.reverse ++ rest := by
  intro rest
  induction rest with
  | nil =>
    intro cur hcur line hl
    simp only [scanFrom] at hl
    split at hl
    · simp at hl
    · split at hl
      · simp only [List.mem_singleton] at hl
        subst hl
        have hp := dropCR_isPre cur.reverse
        refine ⟨fun h => hcur ?_, ?_⟩
        · exact List.mem_reverse.mp (hp.subset h)
        · simpa using hp.isInfix
      · simp at hl
  | cons c rest ih =>
    intro cur hcur line hl
    simp only [scanFrom] at hl
    by_cases hc : c = '\n'
    · simp only [hc, if_true] at hl
      split at hl
      · rcases List.mem_cons.mp hl with rfl | hl
        · have hp := dropCR_isPre cur.reverse
          refine ⟨fun h => hcur ?_, ?_⟩
          · exact List.mem_reverse.mp (hp.subset h)
          · exact (hp.trans (List.prefix_append _ _)).isInfix
        · obtain ⟨h1, h2⟩ := ih [] (by simp) line hl
          refine ⟨h1, ?_⟩
          simp only [List.reverse_nil, List.nil_append] at h2
          exact h2.trans ⟨cur.reverse ++ [c], [], by simp⟩
      · simp at hl
    · simp only [hc, if_false] at hl
      have hcur' : '\n' ∉ c :: cur := by
        simp only [List.mem_cons, not_or]
        exact ⟨fun h => hc h.symm, hcur⟩
      obtain ⟨h1, h2⟩ := ih (c :: cur) hcur' line hl
      refine ⟨h1, ?_⟩
      simpa using h2

theorem split_ne_nil (sep : Char) (s : Str) : split sep s ≠ [] := by
  cases s with
  | nil => simp [split]
  | cons c cs =>
    simp only [split]
    split
    · simp
    · split <;> simp

theorem dropFinalEmpty_cons (x : Str) (rest : List Str) (h : rest ≠ []) :
    dropFinalEmpty (x :: rest) = x :: dropFinalEmpty rest := by
  cases rest with
  | nil => exact absurd rfl h
  | cons y ys =>
    simp only [dropFinalEmpty, List.getLast?_cons_cons, List.dropLast_cons₂]
    split <;> rfl

theorem utf8Len_reverse (s : Str) : utf8Len s.reverse = utf8Len s := by
  simp [utf8Len, List.sum_reverse]

theorem scanFrom_eq :
    ∀ (rest cur first : Str) (others : List Str), split '\n' rest = first :: others →
      scanFrom cur rest =
        ((dropFinalEmpty ((cur.reverse ++ first) :: others)).takeWhile
          (fun line => decide (utf8Len line < maxScanTokenSize))).map dropCR := by
  intro rest
  induction rest with
  | nil =>
    intro cur first others h
    simp only [split, List.cons.injEq] at h
    obtain ⟨rfl, rfl⟩ := h
    simp only [scanFrom, List.append_nil, dropFinalEmpty, List.getLast?_singleton,
      Option.some.injEq, List.reverse_eq_nil_iff, List.dropLast_single]
    by_cases hc : cur = []
    · simp [hc]
    · by_cases hs : utf8Len cur < maxScanTokenSize
      · simp [hc, hs, utf8Len_reverse]
      · simp [hc, hs, utf8Len_reverse]
  | cons c rest ih =>
    intro cur first others h
    obtain ⟨f', o', hsp⟩ : ∃ f' o', split '\n' rest = f' :: o' := by
      cases hs : split '\n' rest with
      | nil => exact absurd hs (split_ne_nil _ _)
      | cons a b => exact ⟨a, b, rfl⟩
    by_cases hc : c = '\n'
    · subst hc
      simp only [split, if_true, List.cons.injEq] at h
      obtain ⟨rfl, rfl⟩ := h
      rw [List.append_nil, dropFinalEmpty_cons _ _ (split_ne_nil _ _)]
      have ih' := ih [] f' o' hsp
      simp only [List.reverse_nil, List.nil_append] at ih'
      rw [← hsp] at ih'
      simp only [scanFrom, if_true, List.takeWhile_cons, utf8Len_reverse]
      by_cases hs : utf8Len cur < maxScanTokenSize
      · simp [hs, ih']
      · simp [hs]
    · simp only [split, hc, if_false, hsp, List.cons.injEq] at h
      obtain ⟨rfl, rfl⟩ := h
      have ih' := ih (c :: cur) f' o' hsp
      simp only [scanFrom, hc, if_false]
      rw [ih']
      simp

/-- The scanner delivers the lines of the file, in their order, up to the first line
that does not fit its buffer. -/
theorem scanLines_eq_deliveredLines (content : Str) :
    scanLines content = deliveredLines content := by
  obtain ⟨first, others, hsp⟩ : ∃ f o, split '\n' content = f :: o := by
    cases hs : split '\n' content with
    | nil => exact absurd hs (split_ne_nil _ _)
    | cons a b => exact ⟨a, b, rfl⟩
  have h := scanFrom_eq content [] first others hsp
  simp only [List.reverse_nil, List.nil_append] at h
  rw [scanLines, h, deliveredLines, fileLines, hsp]

/-- Every line the scanner delivers is a piece of the content without a newline. -/
theorem scanLines_spec (content line : Str) (h : line ∈ scanLines content) :
    '\n' ∉ line ∧ line <:+: content := by
  have := scanFrom_spec content [] (by simp) line h
  simpa using this

theorem foldl_append_eq_flatten {α β : Type} (f : α → List β) (l : List α) (init : List β) :
    l.foldl (fun acc x => acc ++ f x) init = init ++ (l.map f).flatten := by
  induction l generalizing init with
  | nil => simp
  | cons x xs ih => simp [ih, List.append_assoc]

theorem extractLinks_eq (fs : FS) (file content : Str) (h : fs file = some content) :
    extractLinks fs file = ((scanLines content).map (findAllString urlRegex)).flatten := by
  simp [extractLinks, h, foldl_append_eq_flatten]

theorem extractLinks_none (fs : FS) (file : Str) (h : fs file = none) :
    extractLinks fs file = [] := by
  simp [extractLinks, h]

/-- The segments of a line: each link of `findAllString` with the text between it
and the link before. -/
theorem findAllString_segments (line : Str) :
    ∃ (segs : List (Str × Str)) (tail : Str),
      line = (segs.map (fun g => g.1 ++ g.2)).flatten ++ tail ∧
      findAllString urlRegex line = segs.map Prod.snd ∧
      ∀ g ∈ segs, ∃ p rest, IsScheme p ∧ linkRun rest ≠ [] ∧ g.2 = p ++ linkRun rest := by
  have := scan_segments (scan_findAllIndex line) (Nat.zero_le _)
  simpa [findAllString] using this

theorem link_shape_of_mem {line link : Str} (h : link ∈ findAllString urlRegex line) :
    link <:+: line ∧ ∃ p rest, IsScheme p ∧ linkRun rest ≠ [] ∧ link = p ++ linkRun rest := by
  obtain ⟨segs, tail, h1, h2, h3⟩ := findAllString_segments line
  rw [h2] at h
  obtain ⟨g, hg, rfl⟩ := List.mem_map.mp h
  refine ⟨?_, h3 g hg⟩
  obtain ⟨s₁, s₂, hs⟩ := List.append_of_mem hg
  refine ⟨(s₁.map (fun g => g.1 ++ g.2)).flatten ++ g.1,
    (s₂.map (fun g => g.1 ++ g.2)).flatten ++ tail, ?_⟩
  conv_rhs => rw [h1, hs]
  simp [List.append_assoc]

theorem intercalate_cons_cons (sep x y : Str) (ys : List Str) :
    sep.intercalate (x :: y :: ys) = x ++ sep ++ sep.intercalate (y :: ys) := by
  simp [List.intercalate, List.intersperse]

theorem intercalate_split (sep : Char) (s : Str) : [sep].intercalate (split sep s) = s := by
  induction s with
  | nil => simp [split, List.intercalate]
  | cons c cs ih =>
    obtain ⟨first, others, hsp⟩ : ∃ f o, split sep cs = f :: o := by
      cases hs : split sep cs with
      | nil => exact absurd hs (split_ne_nil _ _)
      | cons a b => exact ⟨a, b, rfl⟩
    rw [hsp] at ih
    by_cases hc : c = sep
    · simp only [split, hc, if_true, hsp]
      rw [intercalate_cons_cons, ih]
      simp
    · simp only [split, hc, if_false, hsp]
      cases others with
      | nil =>
        simp only [List.intercalate, List.intersperse, List.flatten_cons, List.flatten_nil,
          List.append_nil] at ih ⊢
        rw [ih]
      | cons y ys =>
        rw [intercalate_cons_cons] at ih ⊢
        simp only [List.cons_append, List.cons.injEq, true_and]
        exact ih

theorem not_mem_of_mem_split (sep : Char) (s piece : Str) (h : piece ∈ split sep s) :
    sep ∉ piece := by
  induction s generalizing piece with
  | nil =>
    simp only [split, List.mem_singleton] at h
    subst h
    simp
  | cons c cs ih =>
    obtain ⟨first, others, hsp⟩ : ∃ f o, split sep cs = f :: o := by
      cases hs : split sep cs with
      | nil => exact absurd hs (split_ne_nil _ _)
      | cons a b => exact ⟨a, b, rfl⟩
    by_cases hc : c = sep
    · simp only [split, hc, if_true, List.mem_cons] at h
      rcases h with rfl | h
      · simp
      · exact ih piece h
    · simp only [split, hc, if_false, hsp, List.mem_cons] at h
      rcases h with rfl | h
      · have hf := ih first (by rw [hsp]; exact List.mem_cons_self _ _)
        simp only [List.mem_cons, not_or]
        exact ⟨fun e => hc e.symm, hf⟩
      · exact ih piece (by rw [hsp]; exact List.mem_cons_of_mem _ h)

theorem deliveredLines_isPre (content : Str) :
    deliveredLines content <+: (fileLines content).map dropCR :=
  List.IsPrefix.map dropCR ( List.takeWhile_prefix _)

theorem split_replicate (n : Nat) (t : Str) :
    split '\n' (List.replicate n 'a' ++ '\n' :: t) = List.replicate n 'a' :: split '\n' t := by
  induction n with
  | zero => simp [split]
  | succ n ih =>
    have e : List.replicate (n + 1) 'a' ++ '\n' :: t =
        'a' :: (List.replicate n 'a' ++ '\n' :: t) := rfl
    have hne : ¬ 'a' = '\n' := by decide
    rw [e]
    simp only [split, hne, if_false, ih]
    rfl

theorem utf8Len_replicate (n : Nat) : utf8Len (List.replicate n 'a') = n := by
  induction n with
  | zero => rfl
  | succ n ih =>
    have e : List.replicate (n + 1) 'a' = 'a' :: List.replicate n 'a' := rfl
    have h1 : Char.utf8Size 'a' = 1 := by decide
    rw [e]
    simp only [utf8Len, List.map_cons, List.sum_cons, h1] at ih ⊢
    omega

/-- A first line of `maxScanTokenSize` bytes or more: the scan delivers nothing. -/
theorem deliveredLines_long (n : Nat) (t : Str) (hn : maxScanTokenSize ≤ n) :
    fileLines (List.replicate n 'a' ++ '\n' :: t) =
        List.replicate n 'a' :: fileLines t ∧
      deliveredLines (List.replicate n 'a' ++ '\n' :: t) = [] := by
  have hf : fileLines (List.replicate n 'a' ++ '\n' :: t) =
      List.replicate n 'a' :: fileLines t := by
    rw [fileLines, split_replicate, dropFinalEmpty_cons _ _ (split_ne_nil _ _), fileLines]
  refine ⟨hf, ?_⟩
  have hs : ¬ utf8Len (List.replicate n 'a') < maxScanTokenSize := by
    rw [utf8Len_replicate]
    omega
  rw [deliveredLines, hf, List.takeWhile_cons]
  simp only [hs, decide_False]
  rfl

/-! ## The claims about the link extractor -/

set_option maxRecDepth 1000000 in
/-- C1, as the code has it: every string that `extractLinks` returns is a substring of
a single line of the file, starts with `http://` or `https://` followed by at least
one more rune, and holds none of the five runes of the class `\s` of the pattern (tab,
newline, form feed, carriage return, space) and none of `]`, `)`, `>`, `"`, `'`. The
strings come in line order: they are the links of the lines of the file, which are the
pieces of the content between its newlines in their order, each without its trailing
carriage return, up to the first line that does not fit the buffer of the scanner.
Within a line they come from left to right without overlapping: the line is the
concatenation of the links, each after the text that separates it from the one
before, and of a tail. The line of the specification yields its three links, and a
line holding only `mailto:test@example.com` or `ftp://host/path` yields none. -/
theorem C1_extractLinks_sound (fs : FS) (file : Str) :
    (∀ link ∈ extractLinks fs file,
        (∃ content line, fs file = some content ∧ line ∈ deliveredLines content ∧
          '\n' ∉ line ∧ line <:+: content ∧ link <:+: line) ∧
        (∃ body, body ≠ [] ∧
          (link = "http://".toList ++ body ∨ link = "https://".toList ++ body)) ∧
        (∀ c ∈ link, c ∉ perlSpace ∧ c ∉ [']', ')', '>', '"', '\''])) ∧
    (∀ content, fs file = some content →
        extractLinks fs file =
          ((deliveredLines content).map (findAllString urlRegex)).flatten) ∧
    (∀ content, deliveredLines content <+: (fileLines content).map dropCR ∧
        ['\n'].intercalate (split '\n' content) = content ∧
        ∀ piece ∈ split '\n' content, '\n' ∉ piece) ∧
    (∀ line, ∃ (segs : List (Str × Str)) (tail : Str),
        line = (segs.map (fun g => g.1 ++ g.2)).flatten ++ tail ∧
        findAllString urlRegex line = segs.map Prod.snd) ∧
    extractLinks
        (fun _ => some ("Check [here](https://example.com/page) and <https://foo.bar/x> " ++
          "and \"https://baz.qux/y?z=1\"").toList) file =
      ["https://example.com/page".toList, "https://foo.bar/x".toList,
        "https://baz.qux/y?z=1".toList] ∧
    extractLinks (fun _ => some "mailto:test@example.com".toList) file = [] ∧
    extractLinks (fun _ => some "ftp://host/path".toList) file = [] := by
  refine ⟨?_, ?_, ?_, ?_, ?_, ?_, ?_⟩
  · intro link hlink
    cases hfs : fs file with
    | none => simp [extractLinks_none fs file hfs] at hlink
    | some content =>
      rw [extractLinks_eq fs file content hfs] at hlink
      obtain ⟨found, hfound, hmem⟩ := List.mem_flatten.mp hlink
      obtain ⟨line, hline, rfl⟩ := List.mem_map.mp hfound
      obtain ⟨hin, p, rest, hp, hr, rfl⟩ := link_shape_of_mem hmem
      obtain ⟨hnl, hsub⟩ := scanLines_spec content line hline
      rw [scanLines_eq_deliveredLines] at hline
      refine ⟨⟨content, line, rfl, hline, hnl, hsub, hin⟩, ?_, ?_⟩
      · rcases hp with rfl | rfl
        · exact ⟨linkRun rest, hr, Or.inl rfl⟩
        · exact ⟨linkRun rest, hr, Or.inr rfl⟩
      · intro c hc
        have hstop : c ∉ urlStop := by
          rcases List.mem_append.mp hc with h | h
          · exact not_mem_urlStop_of_mem_scheme hp c h
          · exact not_mem_urlStop_of_mem_linkRun rest c h
        simp only [urlStop, List.mem_append, not_or] at hstop
        exact hstop
  · intro content h
    rw [extractLinks_eq fs file content h, scanLines_eq_deliveredLines]
  · intro content
    exact ⟨deliveredLines_isPre content, intercalate_split '\n' content,
      not_mem_of_mem_split '\n' content⟩
  · intro line
    obtain ⟨segs, tail, h1, h2, _⟩ := findAllString_segments line
    exact ⟨segs, tail, h1, h2⟩
  · simp only [extractLinks]
    decide
  · simp only [extractLinks]
    decide
  · simp only [extractLinks]
    decide

set_option maxRecDepth 1000000 in
/-- C1 fails as stated: a link can hold whitespace. The class `\s` of the pattern has
no no-break space and no vertical tab, which are whitespace (`unicode.IsSpace`): the
line `see http://example.com<U+00A0>for more` yields a link that runs through the
no-break space, and the line `x http://<U+000B>y z` a link that holds a vertical
tab. -/
theorem C1_counterexample :
    extractLinks (fun _ => some "see http://example.com\u00a0for more".toList) [] =
        ["http://example.com\u00a0for".toList] ∧
      '\u00a0' ∈ "http://example.com\u00a0for".toList ∧ isSpace '\u00a0' = true ∧
      extractLinks (fun _ => some "x http://\x0by z".toList) [] = ["http://\x0by".toList] ∧
      '\x0b' ∈ "http://\x0by".toList ∧ isSpace '\x0b' = true := by
  decide

/-- C9, as the code has it: take a line of the file that comes before the first line
of `maxScanTokenSize` (65536) bytes or more, without its trailing carriage return. An
occurrence in it of the literal `http://` or `https://` that is followed by at least
one rune other than the five runes of the class `\s` (tab, newline, form feed, carriage
return, space), `]`, `)`, `>`, `"` and `'` either lies inside an earlier extracted
link, or starts an extracted link, which is returned by `extractLinks` and runs from
the occurrence through the runes that follow, up to the first of these ten runes or
the end of the line. An occurrence that is followed at once by one of these ten runes
or by the end of the line starts no link. -/
theorem C9_occurrence_extracted (fs : FS) (file content line pre p rest : Str)
    (hfs : fs file = some content) (hline : line ∈ deliveredLines content)
    (hocc : line = pre ++ p ++ rest) (hp : IsScheme p) :
    (linkRun rest ≠ [] →
      (∃ m ∈ findAllIndex urlRegex line, m.1 < pre.length ∧ pre.length < m.2) ∨
        ((pre.length, pre.length + (p ++ linkRun rest).length) ∈
            findAllIndex urlRegex line ∧
          slice line (pre.length, pre.length + (p ++ linkRun rest).length) =
            p ++ linkRun rest ∧
          p ++ linkRun rest ∈ extractLinks fs file)) ∧
    (linkRun rest = [] → ∀ m ∈ findAllIndex urlRegex line, m.1 ≠ pre.length) ∧
    linkRun rest = rest.takeWhile (fun c => decide (c ∉ perlSpace ++ [']', ')', '>', '"', '\''])) ∧
    deliveredLines content =
      ((fileLines content).takeWhile
        (fun l => decide (utf8Len l < maxScanTokenSize))).map dropCR := by
  have hdrop : line.drop pre.length = p ++ rest := by
    rw [hocc, List.append_assoc, List.drop_left]
  refine ⟨?_, ?_, rfl, rfl⟩
  · intro hrest
    have hm : matchLen urlRegex (line.drop pre.length) =
        some (p.length + (linkRun rest).length) := by
      rw [hdrop, matchLen_scheme_append p rest hp, if_neg hrest]
    rcases scan_complete (scan_findAllIndex line) pre.length _ (Nat.zero_le _) hm with h | h
    · right
      have hlen : (p ++ linkRun rest).length = p.length + (linkRun rest).length := by simp
      have hslice : slice line (pre.length, pre.length + (p ++ linkRun rest).length) =
          p ++ linkRun rest := by
        simp only [slice, Nat.add_sub_cancel_left, hdrop, hlen]
        rw [List.take_append, take_length_linkRun]
      rw [hlen]
      rw [hlen] at hslice
      refine ⟨h, hslice, ?_⟩
      rw [extractLinks_eq fs file content hfs, scanLines_eq_deliveredLines]
      refine List.mem_flatten.mpr
        ⟨findAllString urlRegex line, List.mem_map.mpr ⟨line, hline, rfl⟩, ?_⟩
      rw [← hslice]
      exact List.mem_map.mpr ⟨_, h, rfl⟩
    · left
      exact h
  · intro hrest m hm hstart
    have h := scan_sound (scan_findAllIndex line) m hm
    rw [hstart, hdrop, matchLen_scheme_append p rest hp, if_pos hrest] at h
    exact absurd h (by simp)

set_option maxRecDepth 1000000 in
/-- C9 witness: in the line `see <http://a.b/c> and http://a.b/c`, the second
occurrence starts the link `http://a.b/c`. -/
theorem C9_occurrence_extracted_witness :
    "http://a.b/c".toList ∈
      extractLinks (fun _ => some "see <http://a.b/c> and http://a.b/c".toList) [] := by
  have h := (C9_occurrence_extracted
    (fun _ => some "see <http://a.b/c> and http://a.b/c".toList)
    [] "see <http://a.b/c> and http://a.b/c".toList "see <http://a.b/c> and http://a.b/c".toList
    "see <http://a.b/c> and ".toList "http://".toList "a.b/c".toList rfl (by decide) (by decide)
    (Or.inl rfl)).1 (by decide)
  rcases h with ⟨m, hm, h1, h2⟩ | ⟨_, _, h⟩
  · revert m
    decide
  · exact h

set_option maxRecDepth 1000000 in
/-- C9 fails as stated, in three ways. The line `see http:// now` holds the literal
`http://`, no link is extracted before it, and `extractLinks` returns nothing for it,
since the pattern needs one rune after the literal. In the line `x http://a<U+00A0>b z`
the link does not end at the first whitespace, the no-break space, which is not in the
class `\s`: it runs on to the space. In a file whose first line is 70000 times `a` and
whose second line is `http://a.b/c`, the scanner stops at the first line, which does
not fit its buffer, and `extractLinks` returns nothing for the second. -/
theorem C9_counterexample :
    ("see http:// now".toList ∈ deliveredLines "see http:// now".toList ∧
      "see http:// now".toList = "see ".toList ++ "http://".toList ++ " now".toList ∧
      findAllIndex urlRegex "see http:// now".toList = [] ∧
      extractLinks (fun _ => some "see http:// now".toList) [] = []) ∧
    (extractLinks (fun _ => some "x http://a\u00a0b z".toList) [] =
        ["http://a\u00a0b".toList] ∧
      isSpace '\u00a0' = true) ∧
    (fileLines (List.replicate 70000 'a' ++ '\n' :: "http://a.b/c".toList) =
        [List.replicate 70000 'a', "http://a.b/c".toList] ∧
      extractLinks
        (fun _ => some (List.replicate 70000 'a' ++ '\n' :: "http://a.b/c".toList)) [] = []) := by
  refine ⟨by decide, by decide, ?_, ?_⟩
  · have h := (deliveredLines_long 70000 "http://a.b/c".toList (by decide)).1
    have e : fileLines "http://a.b/c".toList = ["http://a.b/c".toList] := by decide
    rw [h, e]
  · have h := (deliveredLines_long 70000 "http://a.b/c".toList (by decide)).2
    rw [extractLinks_eq _ [] (List.replicate 70000 'a' ++ '\n' :: "http://a.b/c".toList) rfl,
      scanLines_eq_deliveredLines, h]
    rfl

/-! ## The claims about the link checker -/

theorem buildRequest_eq_none {W : Type} (net : Network W) (url token : Str) :
    buildRequest net url token = none ↔ net.parses url = false := by
  unfold buildRequest newRequest
  by_cases h : net.parses url = true
  · by_cases ht : token = [] <;> simp [h, ht]
  · simp [h]

/-- C4: `checkLink` returns `(false, 0)` when building the request fails and when
performing it fails; for a response with status code `s` it returns `(true, s)` if
`200 <= s < 300` and `(false, s)` if not. So 200, 204 and 299 are reachable and 300,
404 and 500 are broken. -/
theorem C4_checkLink_result {W : Type} (net : Network W) (w : W) (url token : Str) :
    (net.parses url = false → checkLink net w url token = ((false, 0), w)) ∧
    (∀ req w', buildRequest net url token = some req → net.roundTrip w req = (none, w') →
      checkLink net w url token = ((false, 0), w')) ∧
    (∀ req s w', buildRequest net url token = some req →
      net.roundTrip w req = (some s, w') →
        (200 ≤ s ∧ s < 300 → checkLink net w url token = ((true, s), w')) ∧
        (¬ (200 ≤ s ∧ s < 300) → checkLink net w url token = ((false, s), w'))) ∧
    (checkLink (replyNet (some 200)) () url token).1 = (true, 200) ∧
    (checkLink (replyNet (some 204)) () url token).1 = (true, 204) ∧
    (checkLink (replyNet (some 299)) () url token).1 = (true, 299) ∧
    (checkLink (replyNet (some 300)) () url token).1 = (false, 300) ∧
    (checkLink (replyNet (some 404)) () url token).1 = (false, 404) ∧
    (checkLink (replyNet (some 500)) () url token).1 = (false, 500) ∧
    (checkLink (replyNet none) () url token).1 = (false, 0) := by
  refine ⟨?_, ?_, ?_, ?_, ?_, ?_, ?_, ?_, ?_, ?_⟩
  · intro h
    have := (buildRequest_eq_none net url token).mpr h
    simp [checkLink, this]
  · intro req w' hb hr
    simp [checkLink, hb, hr]
  · intro req s w' hb hr
    constructor
    · intro hs
      simp [checkLink, hb, hr, hs.1, hs.2]
    · intro hs
      simp only [checkLink, hb, hr]
      by_cases h1 : 200 ≤ s
      · have h2 : ¬ s < 300 := fun h2 => hs ⟨h1, h2⟩
        simp [h1, h2]
      · simp [h1]
  all_goals
    by_cases ht : token = [] <;>
      simp [checkLink, buildRequest, newRequest, replyNet, ht]

/-- C8: when `checkLink` builds its request, the request is a GET for the URL with no
body; it carries the header `Authorization` with the one value `Bearer <token>` if and
only if the token is not empty, and no other header field is set; this request is the
one handed to `client.Do`. -/
theorem C8_request_built {W : Type} (net : Network W) (url token : Str) (req : Request)
    (h : buildRequest net url token = some req) :
    req.method = "GET".toList ∧ req.url = url ∧ req.body = none ∧
    (GoMap.get req.header "Authorization".toList = some ["Bearer ".toList ++ token] ↔
      token ≠ []) ∧
    (GoMap.get req.header "Authorization".toList ≠ none ↔ token ≠ []) ∧
    (∀ key, key ≠ "Authorization".toList → GoMap.get req.header key = none) ∧
    (token = [] → req.header = []) ∧
    (token ≠ [] → req.header = [("Authorization".toList, ["Bearer ".toList ++ token])]) ∧
    (∀ w, checkLink net w url token =
      match net.roundTrip w req with
      | (none, w') => ((false, 0), w')
      | (some statusCode, w') =>
        ((decide (200 ≤ statusCode) && decide (statusCode < 300), statusCode), w')) := by
  have hc : ∀ w, checkLink net w url token =
      match net.roundTrip w req with
      | (none, w') => ((false, 0), w')
      | (some statusCode, w') =>
        ((decide (200 ≤ statusCode) && decide (statusCode < 300), statusCode), w') := by
    intro w
    simp only [checkLink, h]
  unfold buildRequest newRequest at h
  by_cases hp : net.parses url = true
  · by_cases ht : token = []
    · simp only [hp, if_true, ht, ne_eq, not_true_eq_false, if_false, Option.some.injEq] at h
      subst h
      subst ht
      refine ⟨rfl, rfl, rfl, ?_, ?_, ?_, ?_, ?_, hc⟩ <;> simp [GoMap.get]
    · simp only [hp, if_true, ht, ne_eq, not_false_eq_true, Option.some.injEq] at h
      subst h
      refine ⟨rfl, rfl, rfl, ?_, ?_, ?_, ?_, ?_, hc⟩
      · simp [GoMap.get, GoMap.set, headerSet, ht]
      · simp [GoMap.get, GoMap.set, headerSet, ht]
      · intro key hk
        have hk' : ¬ "Authorization".toList = key := fun e => hk e.symm
        simp only [headerSet, GoMap.set, GoMap.get, hk', if_false]
      · intro h'
        exact absurd h' ht
      · intro _
        simp [GoMap.set, headerSet]
  · simp [hp] at h

/-- C8 witness: the request for `https://a.b/c` with the token `secret`. -/
theorem C8_request_built_witness :
    buildRequest (replyNet (some 200)) "https://a.b/c".toList "secret".toList =
        some { method := "GET".toList, url := "https://a.b/c".toList,
               header := [("Authorization".toList, ["Bearer secret".toList])], body := none } ∧
      GoMap.get [("Authorization".toList, ["Bearer secret".toList])] "Authorization".toList =
        some ["Bearer secret".toList] :=
  ⟨by decide,
    ((C8_request_built (replyNet (some 200)) "https://a.b/c".toList "secret".toList
      { method := "GET".toList, url := "https://a.b/c".toList,
        header := [("Authorization".toList, ["Bearer secret".toList])], body := none }
      (by decide)).2.2.2.1).mpr (by decide)⟩

/-! ## The claims about the file discoverer -/

theorem appendIfMatch_eq (files : List Str) (path : Str) (extensions : List Str) :
    appendIfMatch files path extensions =
      if matchesAny extensions path then files ++ [path] else files := by
  induction extensions with
  | nil => simp [appendIfMatch, matchesAny]
  | cons ext rest ih =>
    by_cases h : hasSuffix path ext = true
    · simp [appendIfMatch, matchesAny, h]
    · simp only [appendIfMatch, h, if_false, ih, matchesAny, List.any_cons, Bool.false_or,
        Bool.not_eq_true] at *
      simp [h]

theorem foldl_appendIfMatch (extensions : List Str) (visited init : List Str) :
    visited.foldl (fun files path => appendIfMatch files path extensions) init =
      init ++ visited.filter (matchesAny extensions) := by
  induction visited generalizing init with
  | nil => simp
  | cons p ps ih =>
    rw [List.foldl_cons, ih, appendIfMatch_eq, List.filter_cons]
    by_cases h : matchesAny extensions p = true <;> simp [h]

theorem discover_eq_filter (extensions visited : List Str) :
    discover extensions visited = visited.filter (matchesAny extensions) := by
  simp [discover, foldl_appendIfMatch]

theorem matchesAny_iff (extensions : List Str) (path : Str) :
    matchesAny extensions path = true ↔ ∃ ext ∈ extensions, ext <:+ path := by
  simp [matchesAny, hasSuffix]

/-- C5: the file list is the sequence of visited paths that end with at least one of
the extension strings, in visit order, with one entry for each visit of such a path,
however many extensions match; with the default extensions `readme.md` is included
and `notes.pdf` and `archive.md.bak` are not. -/
theorem C5_discover_filter (extensions visited : List Str) :
    discover extensions visited = visited.filter (matchesAny extensions) ∧
    (∀ path, matchesAny extensions path = true ↔ ∃ ext ∈ extensions, ext <:+ path) ∧
    (∀ path, path ∈ discover extensions visited ↔
      path ∈ visited ∧ ∃ ext ∈ extensions, ext <:+ path) ∧
    (∀ path, (∃ ext ∈ extensions, ext <:+ path) →
      (discover extensions visited).count path = visited.count path) ∧
    discover [".md".toList, "md".toList, "d".toList] ["a.md".toList] = ["a.md".toList] ∧
    discover (split ',' defaultFlags.exts)
        ["readme.md".toList, "notes.pdf".toList, "archive.md.bak".toList] =
      ["readme.md".toList] := by
  refine ⟨discover_eq_filter extensions visited, matchesAny_iff extensions, ?_, ?_,
    by decide, by decide⟩
  · intro path
    rw [discover_eq_filter, List.mem_filter, matchesAny_iff]
  · intro path h
    rw [discover_eq_filter]
    exact List.count_filter ((matchesAny_iff extensions path).mpr h)

/-- C10, as the code has it: an entry of the extension list that does not begin with
a dot is matched like any other, as a suffix of the path. A visited path that ends with
the entry is put in the file list; for a path that does not end with it, the entry
changes nothing: the path is in the file list exactly when it is there without the
entry. -/
theorem C10_entry_without_dot (exts : Str) (visited : List Str) (entry path : Str)
    (hentry : entry ∈ split ',' exts) (hdot : entry.head? ≠ some '.')
    (hpath : path ∈ visited) :
    (entry <:+ path → path ∈ discover (split ',' exts) visited) ∧
    (¬ entry <:+ path →
      (path ∈ discover (split ',' exts) visited ↔
        path ∈ discover ((split ',' exts).filter (fun e => decide (e ≠ entry))) visited)) := by
  have _ := hdot
  constructor
  · intro h
    rw [discover_eq_filter, List.mem_filter, matchesAny_iff]
    exact ⟨hpath, entry, hentry, h⟩
  · intro h
    simp only [discover_eq_filter, List.mem_filter, matchesAny_iff, hpath, true_and]
    constructor
    · rintro ⟨e, he, hs⟩
      refine ⟨e, ⟨he, ?_⟩, hs⟩
      simp only [ne_eq, decide_eq_true_eq]
      rintro rfl
      exact h hs
    · rintro ⟨e, he, hs⟩
      exact ⟨e, he.1, hs⟩

/-- C10 witness: with `--ext=.txt,md` the path `readme.md` is in the file list. -/
theorem C10_entry_without_dot_witness :
    "md".toList ∈ split ',' ".txt,md".toList ∧ "md".toList.head? ≠ some '.' ∧
      "readme.md".toList ∈ ["readme.md".toList, "notes.txt".toList] ∧
      "readme.md".toList ∈
        discover (split ',' ".txt,md".toList) ["readme.md".toList, "notes.txt".toList] :=
  ⟨by decide, by decide, by decide,
    (C10_entry_without_dot ".txt,md".toList ["readme.md".toList, "notes.txt".toList]
      "md".toList "readme.md".toList (by decide) (by decide) (by decide)).1 (by decide)⟩

/-- C10 fails as stated: with `--ext=.txt,md` the entry `md` does not begin with a dot,
and `readme.md` and `cmd` are put in the file list because of it: neither is there
with `--ext=.txt`. -/
theorem C10_counterexample :
    "md".toList ∈ split ',' ".txt,md".toList ∧ "md".toList.head? ≠ some '.' ∧
      discover (split ',' ".txt,md".toList)
          ["readme.md".toList, "bin/cmd".toList, "notes.txt".toList] =
        ["readme.md".toList, "bin/cmd".toList, "notes.txt".toList] ∧
      discover (split ',' ".txt".toList)
          ["readme.md".toList, "bin/cmd".toList, "notes.txt".toList] =
        ["notes.txt".toList] := by
  decide

/-! ## The check loop -/

theorem GoMap.get_set_self {V : Type} (m : GoMap V) (k : Str) (v : V) :
    GoMap.get (GoMap.set m k v) k = some v := by
  induction m with
  | nil => simp [GoMap.set, GoMap.get]
  | cons kv rest ih =>
    obtain ⟨k', v'⟩ := kv
    by_cases h : k' = k
    · simp [GoMap.set, GoMap.get, h]
    · simp [GoMap.set, GoMap.get, h, ih]

theorem GoMap.get_set_ne {V : Type} (m : GoMap V) (k k' : Str) (v : V) (hne : k' ≠ k) :
    GoMap.get (GoMap.set m k v) k' = GoMap.get m k' := by
  induction m with
  | nil =>
    have : ¬ k = k' := fun e => hne e.symm
    simp [GoMap.set, GoMap.get, this]
  | cons kv rest ih =>
    obtain ⟨k₀, v₀⟩ := kv
    by_cases h : k₀ = k
    · subst h
      have : ¬ k₀ = k' := fun e => hne e.symm
      simp [GoMap.set, GoMap.get, this]
    · by_cases h' : k₀ = k'
      · subst h'
        simp [GoMap.set, GoMap.get, h]
      · simp [GoMap.set, GoMap.get, h, h', ih]

theorem GoMap.eq_nil_iff {V : Type} (m : GoMap V) :
    m = [] ↔ ∀ k, GoMap.get m k = none := by
  constructor
  · rintro rfl k
    rfl
  · intro h
    cases m with
    | nil => rfl
    | cons kv rest =>
      obtain ⟨k, v⟩ := kv
      have := h k
      simp [GoMap.get] at this

theorem GoMap.get_eq_some_mem {V : Type} (m : GoMap V) (k : Str) (v : V)
    (h : GoMap.get m k = some v) : (k, v) ∈ m := by
  induction m with
  | nil => simp [GoMap.get] at h
  | cons kv rest ih =>
    obtain ⟨k', v'⟩ := kv
    by_cases hk : k' = k
    · simp only [GoMap.get, hk, if_true, Option.some.injEq] at h
      subst hk
      subst h
      exact List.mem_cons_self _ _
    · simp only [GoMap.get, hk, if_false] at h
      exact List.mem_cons_of_mem _ (ih h)

theorem GoMap.mem_set {V : Type} (m : GoMap V) (k : Str) (v : V) (p : Str × V)
    (h : p ∈ GoMap.set m k v) : p ∈ m ∨ p = (k, v) := by
  induction m with
  | nil =>
    simp only [GoMap.set, List.mem_singleton] at h
    exact Or.inr h
  | cons kv rest ih =>
    obtain ⟨k', v'⟩ := kv
    by_cases hk : k' = k
    · simp only [GoMap.set, hk, if_true, List.mem_cons] at h
      rcases h with h | h
      · exact Or.inr h
      · exact Or.inl (List.mem_cons_of_mem _ h)
    · simp only [GoMap.set, hk, if_false, List.mem_cons] at h
      rcases h with h | h
      · exact Or.inl (h ▸ List.mem_cons_self _ _)
      · rcases ih h with h' | h'
        · exact Or.inl (List.mem_cons_of_mem _ h')
        · exact Or.inr h'

theorem getSlice_appendBroken_self (m : GoMap (List Str)) (file link : Str) :
    GoMap.getSlice (appendBroken m file link) file = GoMap.getSlice m file ++ [link] := by
  simp [GoMap.getSlice, appendBroken, GoMap.get_set_self]

theorem getSlice_appendBroken_ne (m : GoMap (List Str)) (file link f : Str) (h : f ≠ file) :
    GoMap.getSlice (appendBroken m file link) f = GoMap.getSlice m f := by
  simp [GoMap.getSlice, appendBroken, GoMap.get_set_ne _ _ _ _ h]

theorem firstOccurrences_append_singleton (l : List Str) (x : Str) :
    firstOccurrences (l ++ [x]) =
      if x ∈ l then firstOccurrences l else firstOccurrences l ++ [x] := by
  induction l with
  | nil => simp [firstOccurrences]
  | cons y ys ih =>
    have e : firstOccurrences (y :: ys ++ [x]) =
        y :: (firstOccurrences (ys ++ [x])).filter (fun z => decide (z ≠ y)) := rfl
    have e' : firstOccurrences (y :: ys) =
        y :: (firstOccurrences ys).filter (fun z => decide (z ≠ y)) := rfl
    rw [e, e', ih]
    by_cases hx : x ∈ ys
    · simp [hx]
    · by_cases hxy : x = y
      · subst hxy
        simp [hx, List.filter_append]
      · simp [hx, hxy, List.filter_append]

theorem mem_firstOccurrences (l : List Str) (x : Str) : x ∈ firstOccurrences l ↔ x ∈ l := by
  induction l with
  | nil => simp [firstOccurrences]
  | cons y ys ih =>
    simp only [firstOccurrences, List.mem_cons, List.mem_filter, ih, ne_eq, decide_eq_true_eq]
    by_cases h : x = y <;> simp [h]

theorem nodup_firstOccurrences (l : List Str) : (firstOccurrences l).Nodup := by
  induction l with
  | nil => simp [firstOccurrences]
  | cons y ys ih =>
    simp only [firstOccurrences, List.nodup_cons, List.mem_filter, ne_eq, decide_eq_true_eq,
      not_and, not_not]
    exact ⟨fun _ => trivial, ih.filter _⟩

theorem count_eq_one_of_nodup {α : Type} [BEq α] [LawfulBEq α] {l : List α}
    (h : l.Nodup) {a : α} (ha : a ∈ l) : l.count a = 1 := by
  induction l with
  | nil => simp at ha
  | cons x xs ih =>
    obtain ⟨hx, hxs⟩ := List.nodup_cons.mp h
    rw [List.count_cons]
    rcases List.mem_cons.mp ha with rfl | ha'
    · simp [List.count_eq_zero_of_not_mem hx]
    · have hne : ¬ x = a := fun e => hx (e ▸ ha')
      simp [ih hxs ha', hne]

theorem visitFile_eq_runPairs {W : Type} (net : Network W) (extract : Str → List Str)
    (token : Str) (verbose : Bool) (st : State W) (file : Str) :
    visitFile net extract token verbose st file =
      runPairs net token verbose st ((extract file).map (fun link => (file, link))) := by
  simp [visitFile, runPairs, List.foldl_map]

theorem runPairs_append {W : Type} (net : Network W) (token : Str) (verbose : Bool)
    (st : State W) (ps qs : List (Str × Str)) :
    runPairs net token verbose st (ps ++ qs) =
      runPairs net token verbose (runPairs net token verbose st ps) qs := by
  simp [runPairs, List.foldl_append]

theorem foldl_visitFile_eq {W : Type} (net : Network W) (extract : Str → List Str)
    (token : Str) (verbose : Bool) (files : List Str) (st : State W) :
    files.foldl (visitFile net extract token verbose) st =
      runPairs net token verbose st (occurrences extract files) := by
  induction files generalizing st with
  | nil => simp [occurrences, runPairs]
  | cons f fs ih =>
    rw [List.foldl_cons, ih, visitFile_eq_runPairs]
    simp [occurrences, runPairs_append]

theorem checkLoop_eq_runPairs {W : Type} (net : Network W) (extract : Str → List Str)
    (token : Str) (verbose : Bool) (files : List Str) (w : W) :
    checkLoop net extract token verbose files w =
      runPairs net token verbose (State.init w) (occurrences extract files) :=
  foldl_visitFile_eq net extract token verbose files _

theorem checkLink_ok_iff {W : Type} (net : Network W) (w : W) (url token : Str) :
    (checkLink net w url token).1.1 = true ↔
      200 ≤ (checkLink net w url token).1.2 ∧ (checkLink net w url token).1.2 < 300 := by
  unfold checkLink
  cases buildRequest net url token with
  | none => simp
  | some req =>
    simp only
    rcases hr : net.roundTrip w req with ⟨_ | s, w'⟩
    · simp
    · simp

/-- What one turn of the inner loop does. -/
theorem visitLink_spec {W : Type} (net : Network W) (token : Str) (verbose : Bool)
    (file : Str) (st : State W) (link : Str) :
    ∃ (ok : Bool) (code : Option Int),
      (visitLink net token verbose file st link).history =
        st.history ++ [{ file := file, link := link, ok := ok, code := code }] ∧
      (visitLink net token verbose file st link).brokenLinks =
        (if !ok then appendBroken st.brokenLinks file link else st.brokenLinks) ∧
      ((GoMap.get st.checkedLinks link = some ok ∧ code = none ∧
          (visitLink net token verbose file st link).checkedLinks = st.checkedLinks ∧
          (visitLink net token verbose file st link).world = st.world ∧
          (visitLink net token verbose file st link).stdout =
            (if verbose then st.stdout ++ cachedLine link ok else st.stdout)) ∨
        (GoMap.get st.checkedLinks link = none ∧
          ok = (checkLink net st.world link token).1.1 ∧
          code = some (checkLink net st.world link token).1.2 ∧
          (visitLink net token verbose file st link).checkedLinks =
            GoMap.set st.checkedLinks link ok ∧
          (visitLink net token verbose file st link).world =
            (checkLink net st.world link token).2 ∧
          (visitLink net token verbose file st link).stdout =
            (if verbose then
              st.stdout ++ checkingLine link (checkLink net st.world link token).1.2 ok
            else st.stdout))) := by
  cases hget : GoMap.get st.checkedLinks link with
  | some result =>
    refine ⟨result, none, ?_, ?_, Or.inl ⟨rfl, rfl, ?_, ?_, ?_⟩⟩ <;>
      simp [visitLink, hget]
  | none =>
    refine ⟨(checkLink net st.world link token).1.1,
      some (checkLink net st.world link token).1.2, ?_, ?_,
      Or.inr ⟨rfl, rfl, rfl, ?_, ?_, ?_⟩⟩ <;>
      simp [visitLink, hget]

theorem inv_init {W : Type} (w : W) : Inv [] (State.init w) where
  hist := rfl
  keys := by intro u; simp [State.init, GoMap.get]
  cache := by intro e he; simp [State.init] at he
  calls := rfl
  order := by simp [State.init]
  fresh := by intro e he; simp [State.init] at he
  origin := by intro e he; simp [State.init] at he
  broken := by intro f; simp [State.init, GoMap.getSlice, GoMap.get]
  key := by intro p h; simp [State.init] at h

theorem mem_links_of_history {W : Type} {ps : List (Str × Str)} {st : State W}
    (inv : Inv ps st) (u : Str) : u ∈ ps.map Prod.snd ↔ ∃ e ∈ st.history, e.link = u := by
  rw [← inv.hist]
  simp

theorem inv_broken_step {W : Type} {st st' : State W} (file link : Str) (ok : Bool)
    (code : Option Int)
    (hh : st'.history = st.history ++ [{ file := file, link := link, ok := ok, code := code }])
    (hb : st'.brokenLinks =
      (if !ok then appendBroken st.brokenLinks file link else st.brokenLinks))
    (broken : ∀ f, GoMap.getSlice st.brokenLinks f =
      (st.history.filter (fun e => decide (e.file = f) && !e.ok)).map Event.link)
    (key : ∀ p ∈ st.brokenLinks, p.2 ≠ []) :
    (∀ f, GoMap.getSlice st'.brokenLinks f =
      (st'.history.filter (fun e => decide (e.file = f) && !e.ok)).map Event.link) ∧
    (∀ p ∈ st'.brokenLinks, p.2 ≠ []) := by
  rw [hh, hb]
  cases ok with
  | true =>
    refine ⟨?_, by simpa using key⟩
    intro f
    simp [List.filter_append, broken f]
  | false =>
    constructor
    · intro f
      by_cases hf : f = file
      · subst hf
        simp [List.filter_append, getSlice_appendBroken_self, broken f]
      · have hf' : ¬ file = f := fun e => hf e.symm
        simp [List.filter_append, getSlice_appendBroken_ne _ _ _ _ hf, broken f, hf']
    · intro p hp
      simp only [Bool.not_false, if_true, appendBroken] at hp
      rcases GoMap.mem_set _ _ _ _ hp with h | h
      · exact key p h
      · subst h
        simp

theorem inv_step {W : Type} (net : Network W) (token : Str) (verbose : Bool)
    {ps : List (Str × Str)} {st : State W} (inv : Inv ps st) (file link : Str) :
    Inv (ps ++ [(file, link)]) (visitLink net token verbose file st link) := by
  obtain ⟨ok, code, hh, hb, hcase⟩ := visitLink_spec net token verbose file st link
  obtain ⟨hbroken, hkey⟩ := inv_broken_step file link ok code hh hb inv.broken inv.key
  have hhist : (visitLink net token verbose file st link).history.map
      (fun e => (e.file, e.link)) = ps ++ [(file, link)] := by
    rw [hh]
    simp [inv.hist]
  rcases hcase with ⟨hget, hcode, hchecked, _, _⟩ | ⟨hget, hok, hcode, hchecked, _, _⟩
  · -- the cache answers
    have hmem : link ∈ ps.map Prod.snd := by
      by_contra hnot
      have := (inv.keys link).mpr hnot
      rw [hget] at this
      exact absurd this (by simp)
    obtain ⟨a, ha, hal⟩ := (mem_links_of_history inv link).mp hmem
    have hab : a.ok = ok := by
      have := inv.cache a ha
      rw [hal, hget] at this
      exact (Option.some.inj this).symm
    refine ⟨hhist, ?_, ?_, ?_, ?_, ?_, ?_, hbroken, hkey⟩
    · intro u
      rw [hchecked, inv.keys u]
      simp only [List.map_append, List.map_cons, List.map_nil, List.mem_append,
        List.mem_singleton, not_or]
      constructor
      · intro h
        refine ⟨h, ?_⟩
        rintro rfl
        exact h hmem
      · exact fun h => h.1
    · intro e he
      rw [hh] at he
      rw [hchecked]
      rcases List.mem_append.mp he with he | he
      · exact inv.cache e he
      · simp only [List.mem_singleton] at he
        subst he
        exact hget
    · have : (visitLink net token verbose file st link).calls = st.calls := by
        simp [State.calls, hh, hcode, List.filter_append]
      rw [this, inv.calls]
      simp only [List.map_append, List.map_cons, List.map_nil]
      rw [firstOccurrences_append_singleton, if_pos hmem]
    · rw [hh, List.pairwise_append]
      refine ⟨inv.order, List.pairwise_singleton _ _, ?_⟩
      intro e₁ he₁ e₂ he₂ hl
      simp only [List.mem_singleton] at he₂
      subst he₂
      simp only at hl
      have := inv.cache e₁ he₁
      rw [hl, hget] at this
      exact ⟨hcode, Option.some.inj this⟩
    · intro e he c hc
      rw [hh] at he
      rcases List.mem_append.mp he with he | he
      · exact inv.fresh e he c hc
      · simp only [List.mem_singleton] at he
        subst he
        rw [hcode] at hc
        exact absurd hc (by simp)
    · intro e he
      rw [hh] at he ⊢
      rcases List.mem_append.mp he with he | he
      · obtain ⟨e', he', h1, h2, h3⟩ := inv.origin e he
        exact ⟨e', List.mem_append_left _ he', h1, h2, h3⟩
      · simp only [List.mem_singleton] at he
        subst he
        obtain ⟨e', he', h1, h2, h3⟩ := inv.origin a ha
        exact ⟨e', List.mem_append_left _ he', h1.trans hal, h2.trans hab, h3⟩
  · -- a fresh check
    have hnot : link ∉ ps.map Prod.snd := (inv.keys link).mp hget
    have hold : ∀ e ∈ st.history, e.link ≠ link := by
      intro e he hl
      have := inv.cache e he
      rw [hl, hget] at this
      exact absurd this (by simp)
    refine ⟨hhist, ?_, ?_, ?_, ?_, ?_, ?_, hbroken, hkey⟩
    · intro u
      rw [hchecked]
      simp only [List.map_append, List.map_cons, List.map_nil, List.mem_append,
        List.mem_singleton, not_or]
      by_cases hu : u = link
      · subst hu
        simp [GoMap.get_set_self]
      · rw [GoMap.get_set_ne _ _ _ _ hu, inv.keys u]
        simp [hu]
    · intro e he
      rw [hh] at he
      rw [hchecked]
      rcases List.mem_append.mp he with he | he
      · rw [GoMap.get_set_ne _ _ _ _ (hold e he)]
        exact inv.cache e he
      · simp only [List.mem_singleton] at he
        subst he
        exact GoMap.get_set_self _ _ _
    · have : (visitLink net token verbose file st link).calls = st.calls ++ [link] := by
        simp [State.calls, hh, hcode, List.filter_append]
      rw [this, inv.calls]
      simp only [List.map_append, List.map_cons, List.map_nil]
      rw [firstOccurrences_append_singleton, if_neg hnot]
    · rw [hh, List.pairwise_append]
      refine ⟨inv.order, List.pairwise_singleton _ _, ?_⟩
      intro e₁ he₁ e₂ he₂ hl
      simp only [List.mem_singleton] at he₂
      subst he₂
      exact absurd hl (hold e₁ he₁)
    · intro e he c hc
      rw [hh] at he
      rcases List.mem_append.mp he with he | he
      · exact inv.fresh e he c hc
      · simp only [List.mem_singleton] at he
        subst he
        simp only [hcode, Option.some.injEq] at hc
        subst hc
        simp only [hok]
        exact checkLink_ok_iff net st.world link token
    · intro e he
      rw [hh] at he ⊢
      rcases List.mem_append.mp he with he | he
      · obtain ⟨e', he', h1, h2, h3⟩ := inv.origin e he
        exact ⟨e', List.mem_append_left _ he', h1, h2, h3⟩
      · simp only [List.mem_singleton] at he
        subst he
        refine ⟨_, List.mem_append_right _ (List.mem_singleton.mpr rfl), rfl, rfl, ?_⟩
        simp [hcode]

theorem inv_runPairs {W : Type} (net : Network W) (token : Str) (verbose : Bool)
    (qs : List (Str × Str)) :
    ∀ {ps : List (Str × Str)} {st : State W}, Inv ps st →
      Inv (ps ++ qs) (runPairs net token verbose st qs) := by
  induction qs with
  | nil =>
    intro ps st inv
    simpa [runPairs] using inv
  | cons q qs ih =>
    intro ps st inv
    have h := ih (inv_step net token verbose inv q.1 q.2)
    simpa [runPairs, List.append_assoc] using h

theorem inv_checkLoop {W : Type} (net : Network W) (extract : Str → List Str)
    (token : Str) (verbose : Bool) (files : List Str) (w : W) :
    Inv (occurrences extract files) (checkLoop net extract token verbose files w) := by
  rw [checkLoop_eq_runPairs]
  simpa using inv_runPairs net token verbose (occurrences extract files) (inv_init w)

theorem map_snd_occurrences (extract : Str → List Str) (files : List Str) :
    (occurrences extract files).map Prod.snd = files.flatMap extract := by
  induction files with
  | nil => rfl
  | cons f fs ih =>
    simp only [occurrences, List.flatMap_cons, List.map_append, List.map_map] at ih ⊢
    rw [ih]
    congr 1
    simp [Function.comp_def]

theorem GoMap.set_of_get_none {V : Type} (m : GoMap V) (k : Str) (v : V)
    (h : GoMap.get m k = none) : GoMap.set m k v = m ++ [(k, v)] := by
  induction m with
  | nil => rfl
  | cons kv rest ih =>
    obtain ⟨k', v'⟩ := kv
    by_cases hk : k' = k
    · simp [GoMap.get, hk] at h
    · simp only [GoMap.get, hk, if_false] at h
      simp [GoMap.set, hk, ih h]

theorem checkAll_append_singleton {W : Type} (net : Network W) (token : Str)
    (start : W × GoMap Bool) (urls : List Str) (url : Str) :
    checkAll net token start (urls ++ [url]) =
      ((checkLink net (checkAll net token start urls).1 url token).2,
        (checkAll net token start urls).2 ++
          [(url, (checkLink net (checkAll net token start urls).1 url token).1.1)]) := by
  simp [checkAll, List.foldl_append]

/-- The world and the cache after the occurrences `ps` are those of one call of
`checkLink` for each distinct link, in the order of first occurrence. -/
theorem trace_step {W : Type} (net : Network W) (token : Str) (verbose : Bool) (w : W)
    {ps : List (Str × Str)} {st : State W} (inv : Inv ps st)
    (ht : (st.world, st.checkedLinks) =
      checkAll net token (w, []) (firstOccurrences (ps.map Prod.snd)))
    (file link : Str) :
    ((visitLink net token verbose file st link).world,
        (visitLink net token verbose file st link).checkedLinks) =
      checkAll net token (w, []) (firstOccurrences ((ps ++ [(file, link)]).map Prod.snd)) := by
  obtain ⟨ok, code, _, _, hcase⟩ := visitLink_spec net token verbose file st link
  simp only [List.map_append, List.map_cons, List.map_nil]
  rw [firstOccurrences_append_singleton]
  rcases hcase with ⟨hget, _, hchecked, hw, _⟩ | ⟨hget, hok, _, hchecked, hw, _⟩
  · have hmem : link ∈ ps.map Prod.snd := by
      by_contra hnot
      have := (inv.keys link).mpr hnot
      rw [hget] at this
      exact absurd this (by simp)
    rw [if_pos hmem, hw, hchecked]
    exact ht
  · have hnot : link ∉ ps.map Prod.snd := (inv.keys link).mp hget
    rw [if_neg hnot, checkAll_append_singleton, ← ht, hw, hchecked, hok,
      GoMap.set_of_get_none _ _ _ hget]

theorem trace_runPairs {W : Type} (net : Network W) (token : Str) (verbose : Bool) (w : W)
    (qs : List (Str × Str)) :
    ∀ {ps : List (Str × Str)} {st : State W}, Inv ps st →
      (st.world, st.checkedLinks) =
        checkAll net token (w, []) (firstOccurrences (ps.map Prod.snd)) →
      ((runPairs net token verbose st qs).world,
          (runPairs net token verbose st qs).checkedLinks) =
        checkAll net token (w, []) (firstOccurrences ((ps ++ qs).map Prod.snd)) := by
  induction qs with
  | nil =>
    intro ps st _ ht
    simpa [runPairs] using ht
  | cons q qs ih =>
    intro ps st inv ht
    have h := ih (inv_step net token verbose inv q.1 q.2)
      (trace_step net token verbose w inv ht q.1 q.2)
    simpa [runPairs, List.append_assoc] using h

theorem trace_checkLoop {W : Type} (net : Network W) (extract : Str → List Str)
    (token : Str) (verbose : Bool) (files : List Str) (w : W) :
    ((checkLoop net extract token verbose files w).world,
        (checkLoop net extract token verbose files w).checkedLinks) =
      checkAll net token (w, []) (firstOccurrences (files.flatMap extract)) := by
  rw [checkLoop_eq_runPairs, ← map_snd_occurrences]
  have h := trace_runPairs net token verbose w (occurrences extract files)
    (inv_init w) rfl
  simpa using h

theorem checkLink_logNet (answer : Str → Option Int) (w : List Str) (url token : Str) :
    (checkLink (logNet answer) w url token).2 = w ++ [url] := by
  unfold checkLink buildRequest newRequest
  by_cases ht : token = []
  · simp only [logNet, if_true, ht, ne_eq, not_true_eq_false, if_false]
    cases answer url <;> rfl
  · simp only [logNet, if_true, ht, ne_eq, not_false_eq_true]
    cases answer url <;> rfl

theorem checkAll_logNet (answer : Str → Option Int) (token : Str) (urls : List Str) :
    ∀ (start : List Str × GoMap Bool),
      (checkAll (logNet answer) token start urls).1 = start.1 ++ urls := by
  induction urls using List.reverseRecOn with
  | nil => intro start; simp [checkAll]
  | append_singleton urls url ih =>
    intro start
    rw [checkAll_append_singleton]
    simp only [checkLink_logNet, ih, List.append_assoc]

/-! ## The claims about the check loop -/

/-- C2: the check loop calls `checkLink` exactly once for each distinct URL string
among all the extracted links, in the order of first occurrence, and never for a URL
that is already in the cache. The world and the cache after the loop are those that
one call of `checkLink` for each distinct link leaves, each call made in the world
that the call before left and its boolean stored under the URL; with a network that
records its requests, the record after the loop is the list of the distinct links. A
turn on a URL that is not in the cache makes one call, in the current world, and a
turn on a cached URL leaves the world as it is. URLs that differ in one rune are
distinct: `http://Example.com/A` and `http://example.com/a` each get their own call
and their own cache entry. -/
theorem C2_one_call_per_url {W : Type} (net : Network W) (extract : Str → List Str)
    (token : Str) (verbose : Bool) (files : List Str) (w : W) :
    ((checkLoop net extract token verbose files w).world,
        (checkLoop net extract token verbose files w).checkedLinks) =
      checkAll net token (w, []) (firstOccurrences (files.flatMap extract)) ∧
    (∀ answer : Str → Option Int,
      (checkLoop (logNet answer) extract token verbose files []).world =
        firstOccurrences (files.flatMap extract)) ∧
    (checkLoop net extract token verbose files w).calls =
        firstOccurrences (files.flatMap extract) ∧
    (firstOccurrences (files.flatMap extract)).Nodup ∧
    (∀ u, u ∈ firstOccurrences (files.flatMap extract) ↔ u ∈ files.flatMap extract) ∧
    (∀ u, u ∈ files.flatMap extract →
      (firstOccurrences (files.flatMap extract)).count u = 1) ∧
    (∀ u, GoMap.get (checkLoop net extract token verbose files w).checkedLinks u ≠ none ↔
      u ∈ files.flatMap extract) ∧
    (∀ (st : State W) (file link : Str) (b : Bool),
      GoMap.get st.checkedLinks link = some b →
        (visitLink net token verbose file st link).calls = st.calls ∧
        (visitLink net token verbose file st link).world = st.world ∧
        (visitLink net token verbose file st link).checkedLinks = st.checkedLinks) ∧
    (∀ (st : State W) (file link : Str),
      GoMap.get st.checkedLinks link = none →
        (visitLink net token verbose file st link).calls = st.calls ++ [link] ∧
        (visitLink net token verbose file st link).world =
          (checkLink net st.world link token).2 ∧
        (visitLink net token verbose file st link).checkedLinks =
          st.checkedLinks ++ [(link, (checkLink net st.world link token).1.1)]) ∧
    (checkLoop (logNet (fun _ => some 200))
        (fun _ => ["http://Example.com/A".toList, "http://example.com/a".toList,
          "http://Example.com/A".toList])
        token false ["a.md".toList, "b.md".toList] []).world =
      ["http://Example.com/A".toList, "http://example.com/a".toList] ∧
    (checkLoop (logNet (fun _ => some 200))
        (fun _ => ["http://Example.com/A".toList, "http://example.com/a".toList,
          "http://Example.com/A".toList])
        token false ["a.md".toList, "b.md".toList] []).checkedLinks =
      [("http://Example.com/A".toList, true), ("http://example.com/a".toList, true)] := by
  have inv := inv_checkLoop net extract token verbose files w
  have hcalls := inv.calls
  rw [map_snd_occurrences] at hcalls
  have hlog : ∀ (answer : Str → Option Int) (ex : Str → List Str) (fl : List Str) (v : Bool),
      (checkLoop (logNet answer) ex token v fl []).world =
        firstOccurrences (fl.flatMap ex) := by
    intro answer ex fl v
    have h := congrArg Prod.fst (trace_checkLoop (logNet answer) ex token v fl [])
    simp only [checkAll_logNet, List.nil_append] at h
    exact h
  refine ⟨trace_checkLoop net extract token verbose files w,
    fun answer => hlog answer extract files verbose, hcalls,
    nodup_firstOccurrences _, mem_firstOccurrences _, ?_, ?_, ?_, ?_, ?_, ?_⟩
  · intro u hu
    exact count_eq_one_of_nodup (nodup_firstOccurrences _)
      ((mem_firstOccurrences _ u).mpr hu)
  · intro u
    have := inv.keys u
    rw [map_snd_occurrences] at this
    rw [ne_eq, this, not_not]
  · intro st file link b hget
    obtain ⟨ok, code, hh, _, hcase⟩ := visitLink_spec net token verbose file st link
    rcases hcase with ⟨_, hcode, hchecked, hw, _⟩ | ⟨hnone, _⟩
    · refine ⟨?_, hw, hchecked⟩
      simp [State.calls, hh, hcode, List.filter_append]
    · rw [hget] at hnone
      exact absurd hnone (by simp)
  · intro st file link hget
    obtain ⟨ok, code, hh, _, hcase⟩ := visitLink_spec net token verbose file st link
    rcases hcase with ⟨hsome, _⟩ | ⟨_, hok, hcode, hchecked, hw, _⟩
    · rw [hget] at hsome
      exact absurd hsome (by simp)
    · refine ⟨?_, hw, ?_⟩
      · simp [State.calls, hh, hcode, List.filter_append]
      · rw [hchecked, hok, GoMap.set_of_get_none _ _ _ hget]
  · rw [hlog]
    decide
  · by_cases ht : token = [] <;>
      simp [checkLoop, visitFile, visitLink, State.init, checkLink, buildRequest,
        newRequest, logNet, GoMap.get, GoMap.set, ht]

theorem visitLink_keeps {W : Type} (net : Network W) (token : Str) (verbose : Bool)
    (file : Str) (st : State W) (link u : Str) (b : Bool)
    (h : GoMap.get st.checkedLinks u = some b) :
    GoMap.get (visitLink net token verbose file st link).checkedLinks u = some b := by
  obtain ⟨ok, code, _, _, hcase⟩ := visitLink_spec net token verbose file st link
  rcases hcase with ⟨_, _, hchecked, _, _⟩ | ⟨hnone, _, _, hchecked, _, _⟩
  · rw [hchecked]
    exact h
  · have hne : u ≠ link := by
      rintro rfl
      rw [h] at hnone
      exact absurd hnone (by simp)
    rw [hchecked, GoMap.get_set_ne _ _ _ _ hne]
    exact h

theorem runPairs_keeps {W : Type} (net : Network W) (token : Str) (verbose : Bool)
    (ps : List (Str × Str)) :
    ∀ (st : State W) (u : Str) (b : Bool), GoMap.get st.checkedLinks u = some b →
      GoMap.get (runPairs net token verbose st ps).checkedLinks u = some b := by
  induction ps with
  | nil =>
    intro st u b h
    exact h
  | cons p ps ih =>
    intro st u b h
    exact ih _ u b (visitLink_keeps net token verbose p.1 st p.2 u b h)

/-- C6: once `checkedLinks` holds an entry for a URL, no turn of the loop overwrites
it; a turn on a cached URL takes the cached boolean and calls no checker, and a turn
on a new URL stores what `checkLink` returns. So, in every run, a later occurrence of
a URL, in the same or another file, is answered by the cache with the classification
of the first occurrence, which is the boolean of the one `checkLink` call for it:
whatever the checker would answer if asked again (with `flakyNet` the only call gets
404, a second one would get 200, and all three occurrences are broken). -/
theorem C6_first_result_authoritative {W : Type} (net : Network W) (token : Str)
    (verbose : Bool) :
    (∀ (st : State W) (file link u : Str) (b : Bool),
      GoMap.get st.checkedLinks u = some b →
        GoMap.get (visitLink net token verbose file st link).checkedLinks u = some b) ∧
    (∀ (st : State W) (ps : List (Str × Str)) (u : Str) (b : Bool),
      GoMap.get st.checkedLinks u = some b →
        GoMap.get (runPairs net token verbose st ps).checkedLinks u = some b) ∧
    (∀ (st : State W) (file link : Str) (b : Bool),
      GoMap.get st.checkedLinks link = some b →
        (visitLink net token verbose file st link).history =
          st.history ++ [{ file := file, link := link, ok := b, code := none }] ∧
        (visitLink net token verbose file st link).world = st.world) ∧
    (∀ (st : State W) (file link : Str),
      GoMap.get st.checkedLinks link = none →
        (visitLink net token verbose file st link).history =
          st.history ++ [{ file := file, link := link,
                           ok := (checkLink net st.world link token).1.1,
                           code := some (checkLink net st.world link token).1.2 }] ∧
        GoMap.get (visitLink net token verbose file st link).checkedLinks link =
          some (checkLink net st.world link token).1.1) ∧
    (∀ (extract : Str → List Str) (files : List Str) (w : W),
      (checkLoop net extract token verbose files w).history.map (fun e => (e.file, e.link)) =
        occurrences extract files ∧
      (checkLoop net extract token verbose files w).history.Pairwise
        (fun e₁ e₂ => e₁.link = e₂.link → e₂.code = none ∧ e₂.ok = e₁.ok) ∧
      (∀ e ∈ (checkLoop net extract token verbose files w).history,
        GoMap.get (checkLoop net extract token verbose files w).checkedLinks e.link =
          some e.ok) ∧
      (∀ e ∈ (checkLoop net extract token verbose files w).history,
        ∃ e' ∈ (checkLoop net extract token verbose files w).history,
          e'.link = e.link ∧ e'.ok = e.ok ∧ e'.code.isSome = true)) ∧
    ((checkLoop flakyNet
        (fun file => if file = "a.md".toList then ["http://x.y/z".toList, "http://x.y/z".toList]
          else ["http://x.y/z".toList])
        token false ["a.md".toList, "b.md".toList] 0).history.map
        (fun e => (e.file, e.ok, e.code)) =
      [("a.md".toList, false, some 404), ("a.md".toList, false, none),
        ("b.md".toList, false, none)] ∧
      (checkLink flakyNet 1 "http://x.y/z".toList token).1 = (true, 200)) := by
  refine ⟨fun st file link u b h => visitLink_keeps net token verbose file st link u b h,
    ?_, ?_, ?_, ?_, ?_⟩
  · intro st ps u b h
    exact runPairs_keeps net token verbose ps st u b h
  · intro st file link b hget
    obtain ⟨ok, code, hh, _, hcase⟩ := visitLink_spec net token verbose file st link
    rcases hcase with ⟨hget', hcode, _, hw, _⟩ | ⟨hnone, _⟩
    · rw [hget] at hget'
      cases hget'
      subst hcode
      exact ⟨hh, hw⟩
    · rw [hget] at hnone
      exact absurd hnone (by simp)
  · intro st file link hget
    obtain ⟨ok, code, hh, _, hcase⟩ := visitLink_spec net token verbose file st link
    rcases hcase with ⟨hget', _⟩ | ⟨_, hok, hcode, hchecked, _, _⟩
    · rw [hget] at hget'
      exact absurd hget' (by simp)
    · subst hok
      subst hcode
      exact ⟨hh, by rw [hchecked, GoMap.get_set_self]⟩
  · intro extract files w
    have inv := inv_checkLoop net extract token verbose files w
    exact ⟨inv.hist, inv.order, inv.cache, inv.origin⟩
  · constructor
    · by_cases ht : token = [] <;>
        simp [checkLoop, visitFile, visitLink, State.init, checkLink, buildRequest,
          newRequest, flakyNet, GoMap.get, GoMap.set, ht]
    · by_cases ht : token = [] <;>
        simp [checkLink, buildRequest, newRequest, flakyNet, ht]

theorem filter_occurrences_of_not_mem (extract : Str → List Str) (files : List Str)
    (file : Str) (h : file ∉ files) :
    (occurrences extract files).filter (fun p => decide (p.1 = file)) = [] := by
  induction files with
  | nil => rfl
  | cons f fs ih =>
    have hf : ¬ f = file := fun e => h (e ▸ List.mem_cons_self _ _)
    have hfs : file ∉ fs := fun e => h (List.mem_cons_of_mem _ e)
    have ih' := ih hfs
    simp only [occurrences, List.flatMap_cons, List.filter_append] at ih' ⊢
    rw [ih']
    simp [List.filter_map, Function.comp_def, hf]

theorem filter_occurrences (extract : Str → List Str) (files : List Str) (file : Str)
    (hnodup : files.Nodup) (hfile : file ∈ files) :
    (occurrences extract files).filter (fun p => decide (p.1 = file)) =
      (extract file).map (fun link => (file, link)) := by
  induction files with
  | nil => simp at hfile
  | cons f fs ih =>
    obtain ⟨hf, hfs⟩ := List.nodup_cons.mp hnodup
    have e : occurrences extract (f :: fs) =
        (extract f).map (fun link => (f, link)) ++ occurrences extract fs := by
      simp [occurrences]
    rw [e, List.filter_append]
    rcases List.mem_cons.mp hfile with rfl | hmem
    · rw [filter_occurrences_of_not_mem extract fs file hf]
      simp [List.filter_map, Function.comp_def]
    · have hne : ¬ f = file := fun e => hf (e ▸ hmem)
      rw [ih hfs hmem]
      simp [List.filter_map, Function.comp_def, hne]

/-- The events of a file are its extracted links, in extraction order. -/
theorem history_of_file {W : Type} {extract : Str → List Str} {files : List Str}
    {st : State W} (inv : Inv (occurrences extract files) st) (file : Str)
    (hnodup : files.Nodup) (hfile : file ∈ files) :
    (st.history.filter (fun e => decide (e.file = file))).map Event.link = extract file := by
  have h := congrArg (List.map Prod.snd)
    (filter_occurrences extract files file hnodup hfile)
  rw [← inv.hist, List.filter_map, List.map_map, List.map_map] at h
  simpa [Function.comp_def] using h

theorem broken_eq_filter_cache {W : Type} {ps : List (Str × Str)} {st : State W}
    (inv : Inv ps st) (file : Str) :
    GoMap.getSlice st.brokenLinks file =
      ((st.history.filter (fun e => decide (e.file = file))).map Event.link).filter
        (fun link => decide (GoMap.get st.checkedLinks link = some false)) := by
  rw [inv.broken file, List.filter_map, ← List.filter_filter]
  congr 1
  rw [List.filter_filter, List.filter_filter]
  apply List.filter_congr
  intro e he
  have := inv.cache e he
  simp only [Function.comp_apply, this, Option.some.injEq]
  cases e.ok <;> simp [Bool.and_comm]

/-- C3: after the check loop, for every file of a file list without duplicates, the
list under the file in `brokenLinks` (empty when the file is no key) is the sequence
of the extracted links of the file that were classified broken, in extraction order
and with every duplicate occurrence kept; the file is a key if and only if at least
one of its extracted links was classified broken. The classification of an
occurrence is the boolean of its event in the history, which is the boolean that the
cache holds for the link. -/
theorem C3_brokenLinks_per_file {W : Type} (net : Network W) (extract : Str → List Str)
    (token : Str) (verbose : Bool) (files : List Str) (w : W) (file : Str)
    (hnodup : files.Nodup) (hfile : file ∈ files) :
    ((checkLoop net extract token verbose files w).history.filter
        (fun e => decide (e.file = file))).map Event.link = extract file ∧
    (∀ e ∈ (checkLoop net extract token verbose files w).history,
      GoMap.get (checkLoop net extract token verbose files w).checkedLinks e.link =
        some e.ok) ∧
    GoMap.getSlice (checkLoop net extract token verbose files w).brokenLinks file =
      ((checkLoop net extract token verbose files w).history.filter
        (fun e => decide (e.file = file) && !e.ok)).map Event.link ∧
    GoMap.getSlice (checkLoop net extract token verbose files w).brokenLinks file =
      (extract file).filter (fun link => decide
        (GoMap.get (checkLoop net extract token verbose files w).checkedLinks link =
          some false)) ∧
    (GoMap.get (checkLoop net extract token verbose files w).brokenLinks file ≠ none ↔
      ∃ link ∈ extract file,
        GoMap.get (checkLoop net extract token verbose files w).checkedLinks link =
          some false) := by
  have inv := inv_checkLoop net extract token verbose files w
  have hfileEvents := history_of_file inv file hnodup hfile
  have hslice := broken_eq_filter_cache inv file
  rw [hfileEvents] at hslice
  refine ⟨hfileEvents, inv.cache, inv.broken file, hslice, ?_⟩
  constructor
  · intro hkey
    cases hget : GoMap.get (checkLoop net extract token verbose files w).brokenLinks file with
    | none => exact absurd hget hkey
    | some l =>
      have hl : l ≠ [] := inv.key _ (GoMap.get_eq_some_mem _ _ _ hget)
      have : GoMap.getSlice (checkLoop net extract token verbose files w).brokenLinks file = l := by
        simp [GoMap.getSlice, hget]
      rw [hslice] at this
      cases l with
      | nil => exact absurd rfl hl
      | cons x xs =>
        have hx : x ∈ (extract file).filter (fun link => decide
            (GoMap.get (checkLoop net extract token verbose files w).checkedLinks link =
              some false)) := by
          rw [this]
          exact List.mem_cons_self _ _
        obtain ⟨h1, h2⟩ := List.mem_filter.mp hx
        exact ⟨x, h1, by simpa using h2⟩
  · rintro ⟨link, hlink, hbroken⟩ hnone
    have hmem : link ∈ (extract file).filter (fun link => decide
        (GoMap.get (checkLoop net extract token verbose files w).checkedLinks link =
          some false)) := List.mem_filter.mpr ⟨hlink, by simpa using hbroken⟩
    rw [← hslice] at hmem
    simp [GoMap.getSlice, hnone] at hmem

/-- C3 witness: a URL that answers 404 occurs twice in `a.md` and once in `b.md`; it is
listed twice under `a.md` and once under `b.md`. -/
theorem C3_brokenLinks_per_file_witness :
    ["a.md".toList, "b.md".toList].Nodup ∧ "a.md".toList ∈ ["a.md".toList, "b.md".toList] ∧
    GoMap.getSlice (checkLoop (replyNet (some 404))
        (fun file => if file = "a.md".toList then ["http://x.y/z".toList, "http://x.y/z".toList]
          else ["http://x.y/z".toList])
        [] false ["a.md".toList, "b.md".toList] ()).brokenLinks "a.md".toList =
      ["http://x.y/z".toList, "http://x.y/z".toList] ∧
    (checkLoop (replyNet (some 404))
        (fun file => if file = "a.md".toList then ["http://x.y/z".toList, "http://x.y/z".toList]
          else ["http://x.y/z".toList])
        [] false ["a.md".toList, "b.md".toList] ()).brokenLinks =
      [("a.md".toList, ["http://x.y/z".toList, "http://x.y/z".toList]),
        ("b.md".toList, ["http://x.y/z".toList])] := by
  have h := (C3_brokenLinks_per_file (replyNet (some 404))
    (fun file => if file = "a.md".toList then ["http://x.y/z".toList, "http://x.y/z".toList]
      else ["http://x.y/z".toList])
    [] false ["a.md".toList, "b.md".toList] () "a.md".toList (by decide) (by decide)).2.2.2.1
  refine ⟨by decide, by decide, ?_, by decide⟩
  rw [h]
  decide

/-! ## The claim about the final summary -/

theorem report_eq_success {entries : GoMap (List Str)} (h : entries = []) :
    report entries = successLine := by
  subst h
  rfl

theorem report_eq_listing {entries : GoMap (List Str)} (h : entries ≠ []) :
    report entries = headerLine ++ entries.flatMap fileBlock := by
  have : ¬ entries.length = 0 := fun e => h (List.length_eq_zero.mp e)
  simp only [report, this, if_false]
  rfl

theorem successLine_ne_listing (x : Str) : successLine ≠ headerLine ++ x := by
  intro h
  have h1 : successLine.head? = some '✅' := by decide
  have h2 : (headerLine ++ x).head? = some '\n' := by
    have : headerLine = '\n' :: headerLine.tail := by decide
    rw [this]
    rfl
  rw [h, h2] at h1
  exact absurd h1 (by decide)

theorem report_eq_success_iff (entries : GoMap (List Str)) :
    report entries = successLine ↔ entries = [] := by
  constructor
  · intro h
    by_contra hne
    rw [report_eq_listing hne] at h
    exact successLine_ne_listing _ h.symm
  · exact report_eq_success

theorem brokenLinks_eq_nil_iff {W : Type} {ps : List (Str × Str)} {st : State W}
    (inv : Inv ps st) : st.brokenLinks = [] ↔ ∀ e ∈ st.history, e.ok = true := by
  constructor
  · intro h e he
    have := inv.broken e.file
    rw [h] at this
    by_contra hok
    have hmem : e ∈ st.history.filter (fun e' => decide (e'.file = e.file) && !e'.ok) := by
      rw [List.mem_filter]
      refine ⟨he, ?_⟩
      simpa using hok
    have hl : e.link ∈ (st.history.filter
        (fun e' => decide (e'.file = e.file) && !e'.ok)).map Event.link :=
      List.mem_map.mpr ⟨e, hmem, rfl⟩
    rw [← this] at hl
    simp [GoMap.getSlice, GoMap.get] at hl
  · intro h
    cases hb : st.brokenLinks with
    | nil => rfl
    | cons p rest =>
      exfalso
      have hp : p ∈ st.brokenLinks := by
        rw [hb]
        exact List.mem_cons_self _ _
      have hne := inv.key p hp
      have hget : GoMap.get st.brokenLinks p.1 = some p.2 := by
        rw [hb]
        simp [GoMap.get]
      have hslice := inv.broken p.1
      simp only [GoMap.getSlice, hget, Option.getD_some] at hslice
      have hnil : st.history.filter (fun e => decide (e.file = p.1) && !e.ok) = [] := by
        rw [List.filter_eq_nil_iff]
        intro e he
        simp [h e he]
      rw [hnil] at hslice
      exact hne hslice

theorem runPairs_stdout_quiet {W : Type} (net : Network W) (token : Str)
    (ps : List (Str × Str)) :
    ∀ (st : State W), (runPairs net token false st ps).stdout = st.stdout := by
  induction ps with
  | nil => intro st; rfl
  | cons p ps ih =>
    intro st
    have h1 := ih (visitLink net token false p.1 st p.2)
    have h2 : (visitLink net token false p.1 st p.2).stdout = st.stdout := by
      obtain ⟨ok, code, _, _, hcase⟩ := visitLink_spec net token false p.1 st p.2
      rcases hcase with ⟨_, _, _, _, hs⟩ | ⟨_, _, _, _, _, hs⟩ <;> simpa using hs
    exact h1.trans h2

theorem all_ok_of_all_2xx {W : Type} {ps : List (Str × Str)} {st : State W}
    (inv : Inv ps st)
    (h : ∀ e ∈ st.history, ∀ c, e.code = some c → 200 ≤ c ∧ c < 300) :
    ∀ e ∈ st.history, e.ok = true := by
  intro e he
  obtain ⟨e', he', _, hok, hsome⟩ := inv.origin e he
  obtain ⟨c, hc⟩ := Option.isSome_iff_exists.mp hsome
  rw [← hok]
  exact (inv.fresh e' he' c hc).mpr (h e' he' c hc)

theorem listing_of_broken {W : Type} {ps : List (Str × Str)} {st : State W}
    (inv : Inv ps st) (entries : GoMap (List Str)) (hperm : entries.Perm st.brokenLinks)
    (h : ∃ e ∈ st.history, e.ok = false) :
    ∃ (file link pre post : Str),
      (∃ e ∈ st.history, e.file = file ∧ e.link = link ∧ e.ok = false) ∧
      report entries =
        headerLine ++ pre ++ println ["📄".toList, file] ++
          println ["   ❌".toList, link] ++ post := by
  obtain ⟨e, he, hok⟩ := h
  have hslice := inv.broken e.file
  have hmem : e ∈ st.history.filter (fun e' => decide (e'.file = e.file) && !e'.ok) := by
    rw [List.mem_filter]
    exact ⟨he, by simp [hok]⟩
  cases hget : GoMap.get st.brokenLinks e.file with
  | none =>
    simp only [GoMap.getSlice, hget, Option.getD_none] at hslice
    have := List.map_eq_nil_iff.mp hslice.symm
    rw [this] at hmem
    simp at hmem
  | some l =>
    simp only [GoMap.getSlice, hget, Option.getD_some] at hslice
    have hentry : (e.file, l) ∈ entries :=
      hperm.mem_iff.mpr (GoMap.get_eq_some_mem _ _ _ hget)
    have hne : entries ≠ [] := List.ne_nil_of_mem hentry
    obtain ⟨s₁, s₂, hs⟩ := List.append_of_mem hentry
    cases l with
    | nil =>
      have := List.map_eq_nil_iff.mp hslice.symm
      rw [this] at hmem
      simp at hmem
    | cons x xs =>
      have hx : x ∈ (st.history.filter
          (fun e' => decide (e'.file = e.file) && !e'.ok)).map Event.link := by
        rw [← hslice]
        exact List.mem_cons_self _ _
      obtain ⟨e₀, he₀, hl₀⟩ := List.mem_map.mp hx
      obtain ⟨hin, hp⟩ := List.mem_filter.mp he₀
      simp only [Bool.and_eq_true, decide_eq_true_eq, Bool.not_eq_true'] at hp
      refine ⟨e.file, x, s₁.flatMap fileBlock,
        xs.flatMap (fun l => println ["   ❌".toList, l]) ++ s₂.flatMap fileBlock,
        ⟨e₀, hin, hp.1, hl₀, hp.2⟩, ?_⟩
      rw [report_eq_listing hne, hs]
      simp [fileBlock, List.flatMap_append, List.append_assoc]

/-- C7: the final summary is the single success line, with no listing, if and only if
no link extracted from a discovered file was classified broken. When every status
that `checkLink` obtains is a 2xx status, the summary is the success line, and
without the flag `v` it is all that `main` prints; when a link is classified broken,
the summary is the header followed by a listing that holds the line of a file and,
right after it, the line of a URL classified broken in that file. The entries of
`brokenLinks` may be listed in any order. -/
theorem C7_final_summary {W : Type} (net : Network W) (extract : Str → List Str)
    (token : Str) (verbose : Bool) (files : List Str) (w : W)
    (order : GoMap (List Str) → GoMap (List Str)) (horder : ∀ m, (order m).Perm m) :
    (checkLoop net extract token verbose files w).history.map (fun e => (e.file, e.link)) =
      occurrences extract files ∧
    (report (order (checkLoop net extract token verbose files w).brokenLinks) = successLine ↔
      ∀ e ∈ (checkLoop net extract token verbose files w).history, e.ok = true) ∧
    ((∀ e ∈ (checkLoop net extract token verbose files w).history,
        ∀ c, e.code = some c → 200 ≤ c ∧ c < 300) →
      report (order (checkLoop net extract token verbose files w).brokenLinks) =
        successLine) ∧
    ((∃ e ∈ (checkLoop net extract token verbose files w).history, e.ok = false) →
      ∃ (file link pre post : Str),
        (∃ e ∈ (checkLoop net extract token verbose files w).history,
          e.file = file ∧ e.link = link ∧ e.ok = false) ∧
        report (order (checkLoop net extract token verbose files w).brokenLinks) =
          headerLine ++ pre ++ println ["📄".toList, file] ++
            println ["   ❌".toList, link] ++ post) ∧
    (∀ (fs : FS) (walk : Str → List Str) (flags : Flags) (dir : Str) (rest : List Str),
      main net fs walk order flags (dir :: rest) w =
        ((checkLoop net (extractLinks fs) flags.token flags.verbose
            (discover (split ',' flags.exts) (walk dir)) w).stdout ++
          report (order (checkLoop net (extractLinks fs) flags.token flags.verbose
            (discover (split ',' flags.exts) (walk dir)) w).brokenLinks), 0)) ∧
    (∀ (fs : FS) (walk : Str → List Str) (flags : Flags) (dir : Str) (rest : List Str),
      flags.verbose = false →
      (∀ e ∈ (checkLoop net (extractLinks fs) flags.token flags.verbose
            (discover (split ',' flags.exts) (walk dir)) w).history,
        ∀ c, e.code = some c → 200 ≤ c ∧ c < 300) →
      main net fs walk order flags (dir :: rest) w = (successLine, 0)) := by
  have key : ∀ (extract : Str → List Str) (token : Str) (verbose : Bool) (files : List Str),
      (report (order (checkLoop net extract token verbose files w).brokenLinks) =
          successLine ↔
        ∀ e ∈ (checkLoop net extract token verbose files w).history, e.ok = true) := by
    intro extract token verbose files
    have inv := inv_checkLoop net extract token verbose files w
    rw [report_eq_success_iff, ← brokenLinks_eq_nil_iff inv]
    constructor
    · intro h
      have := (horder (checkLoop net extract token verbose files w).brokenLinks).length_eq
      rw [h] at this
      exact List.length_eq_zero.mp this.symm
    · intro h
      rw [h]
      exact (horder []).eq_nil
  have inv := inv_checkLoop net extract token verbose files w
  refine ⟨inv.hist, key extract token verbose files, ?_, ?_, ?_, ?_⟩
  · intro h
    exact (key extract token verbose files).mpr (all_ok_of_all_2xx inv h)
  · intro h
    exact listing_of_broken inv _ (horder _) h
  · intro fs walk flags dir rest
    rfl
  · intro fs walk flags dir rest hv h
    have inv' := inv_checkLoop net (extractLinks fs) flags.token flags.verbose
      (discover (split ',' flags.exts) (walk dir)) w
    have hrep := (key (extractLinks fs) flags.token flags.verbose
      (discover (split ',' flags.exts) (walk dir))).mpr (all_ok_of_all_2xx inv' h)
    have hout : (checkLoop net (extractLinks fs) flags.token flags.verbose
        (discover (split ',' flags.exts) (walk dir)) w).stdout = [] := by
      rw [hv, checkLoop_eq_runPairs, runPairs_stdout_quiet]
      rfl
    show (_ ++ _, 0) = (successLine, 0)
    rw [hrep, hout]
    rfl

set_option maxRecDepth 1000000 in
/-- C7 witness: a directory with one file, `docs/x.md`, whose only link answers 200:
without the flag `v`, `main` prints the success line and nothing else, also when
`range` yields the entries of the map in reverse order. -/
theorem C7_final_summary_witness :
    main (replyNet (some 200)) (fun _ => some "see <https://a.b/c>".toList)
        (fun dir => [dir, dir ++ "/x.md".toList]) List.reverse defaultFlags ["docs".toList] () =
      (successLine, 0) := by
  have h := (C7_final_summary (replyNet (some 200)) (fun _ => []) [] false [] ()
    List.reverse (fun m => List.reverse_perm m)).2.2.2.2.2
    (fun _ => some "see <https://a.b/c>".toList)
    (fun dir => [dir, dir ++ "/x.md".toList]) defaultFlags "docs".toList [] rfl
  apply h
  have hh : (checkLoop (replyNet (some 200))
      (extractLinks (fun _ => some "see <https://a.b/c>".toList)) defaultFlags.token
      defaultFlags.verbose
      (discover (split ',' defaultFlags.exts) ["docs".toList, "docs".toList ++ "/x.md".toList])
      ()).history =
        [{ file := "docs/x.md".toList, link := "https://a.b/c".toList, ok := true,
           code := some 200 }] := by
    decide
  intro e he c hc
  rw [hh, List.mem_singleton] at he
  subst he
  simp only [Option.some.injEq] at hc
  subst hc
  decide

end Chefiles
